import Mathlib

/-!
Verification of the query routing and retrieval pipeline of the
nepali-english-chatbot repository (app.py, faq_search.py, web_search.py),
against the natural-language specification.

Modelling conventions, used throughout:
* Python strings are modelled as Lean String / List Char.  Character class
  tests (whitespace, word characters) model the ASCII behaviour of the
  Python patterns plus the Devanagari blocks the code cares about; other
  Unicode classes are outside the scope of the claims checked here.
* Wall-clock instants (datetime.now) are rational numbers of seconds;
  timedelta comparisons are exact rational comparisons, and the timedelta
  seconds attribute is floor of the total seconds modulo 86400, as in
  CPython for a normalised timedelta.
* Python float arithmetic on the small similarity scores and percentage
  ratios is modelled by exact rational arithmetic.
* Fallible operations (index errors, raised exceptions) are modelled with
  Option / Except; external collaborators (HTTP transport, HTML parsing
  oracles, the language model, the embedding model) are explicit function
  parameters.
-/

/-! ## Basic character utilities (model of the Python character classes) -/

/-- Whitespace test modelling the ASCII part of the Python regex class
backslash-s and of str.strip. -/
def isWS (c : Char) : Bool :=
  c = ' ' || c = '\t' || c = '\n' || c = '\r' || c = '\x0b' || c = '\x0c'

/-- Devanagari code point test, the three ranges of
LanguageDetector.DEVANAGARI_RANGES in app.py. -/
def isDevanagariChar (c : Char) : Bool :=
  (0x0900 ≤ c.toNat && c.toNat ≤ 0x097F) ||
  (0x1CD0 ≤ c.toNat && c.toNat ≤ 0x1CFF) ||
  (0xA8E0 ≤ c.toNat && c.toNat ≤ 0xA8FF)

/-- Word-character test modelling the regex class backslash-w for the
scripts relevant to this code base: ASCII alphanumerics, underscore, and
the Devanagari blocks.  (Python treats all Unicode word characters as
backslash-w; only these occur in the corpus and claims.) -/
def isWordChar (c : Char) : Bool :=
  c.isAlphanum || c = '_' || isDevanagariChar c

/-- Python str.strip restricted to the modelled whitespace set:
drop whitespace from both ends. -/
def stripL (l : List Char) : List Char :=
  ((l.dropWhile isWS).reverse.dropWhile isWS).reverse

/-- Lowercasing a character list (model of str.lower; ASCII-effective). -/
def lowerL (l : List Char) : List Char := l.map Char.toLower

/-! ## RateLimiter (app.py lines 60-99)

The call log is a list of rational instants; calls_per_minute is kept as an
integer so that the non-positive configurations of claim C9 can be
expressed.  wait_if_needed returns none exactly when the Python code would
raise (IndexError on reading calls[0] from an empty list), and otherwise
returns the new call log together with the instant at which the function
returns control to the caller (the admission instant: now, plus the modelled
time.sleep duration when a wait happens). -/

/-- Seconds attribute of a CPython timedelta of q seconds total:
floor of q, modulo 86400. -/
def tdSeconds (q : ℚ) : ℤ := q.floor % 86400

/-- One wait_if_needed call: prune entries older than 60 s, wait and reset
when the pruned log has reached calls_per_minute entries, then append the
arrival instant now.  Returns (new log, instant at which the call returns). -/
def RateLimiter.wait_if_needed (cpm : ℤ) (calls : List ℚ) (now : ℚ) :
    Option (List ℚ × ℚ) :=
  let pruned := calls.filter (fun t => decide (now - t < 60))
  if (pruned.length : ℤ) ≥ cpm then
    match pruned with
    | [] => none
    | oldest :: _ =>
      let waitSeconds : ℤ := 60 - tdSeconds (now - oldest)
      if 0 < waitSeconds then
        let sleepTime : ℚ := (oldest + 60) - now
        let ret : ℚ := if 0 < sleepTime then now + sleepTime + 1/2 else now
        some ([now], ret)
      else
        some (pruned ++ [now], now)
  else
    some (pruned ++ [now], now)

/-- get_remaining_calls (read-only query): prune, then
max 0 (cpm - length). -/
def RateLimiter.get_remaining_calls (cpm : ℤ) (calls : List ℚ) (now : ℚ) : ℤ :=
  max 0 (cpm - ((calls.filter (fun t => decide (now - t < 60))).length : ℤ))

/-- The constructor (app.py lines 62-65): it stores calls_per_minute and an
empty log; the source performs no validation, so it never signals an
error. -/
def RateLimiter.init (cpm : ℤ) : Except String (ℤ × List ℚ) :=
  Except.ok (cpm, [])

/-- A sequential client issuing calls at the given desired arrival instants:
each call starts at the later of its arrival instant and the return instant
of the previous call (the caller is single-threaded).  Returns the final
log and the list of admission instants, or none if some call raised. -/
def runCallsGo (cpm : ℤ) : List ℚ → List ℚ → List ℚ → ℚ →
    Option (List ℚ × List ℚ)
  | [], log, adms, _ => some (log, adms.reverse)
  | a :: rest, log, adms, t =>
    let now := max a t
    match RateLimiter.wait_if_needed cpm log now with
    | none => none
    | some (log2, ret) => runCallsGo cpm rest log2 (ret :: adms) ret

/-- Run a whole sequence of wait_if_needed calls from the initial state. -/
def runCalls (cpm : ℤ) (arrivals : List ℚ) : Option (List ℚ × List ℚ) :=
  runCallsGo cpm arrivals [] [] 0

/-- Number of admission instants inside the trailing 60 second window
ending at T (instants a with T - 60 < a and a ≤ T). -/
def windowCount (adms : List ℚ) (T : ℚ) : ℕ :=
  (adms.filter (fun a => decide (a ≤ T) && decide (T - a < 60))).length

example : RateLimiter.wait_if_needed 2 [] 0 = some ([0], 0) := by
  norm_num [RateLimiter.wait_if_needed]
example : RateLimiter.wait_if_needed 2 [0, 1] 2 = some ([2], 121/2) := by
  norm_num [RateLimiter.wait_if_needed, List.filter, tdSeconds, Rat.floor]

/-! ## LanguageDetector (app.py lines 105-204) -/

/-- The NEPALI_INDICATORS lexicon of app.py, in source order (the source
writes it as a set literal; repeated entries are harmless for
membership). -/
def NEPALI_INDICATORS : List String :=
  ["ma", "cha", "chha", "ho", "huncha", "hunchha", "hunxa", "hunna",
   "ko", "lai", "le", "ra", "ni", "ta", "po",
   "timro", "mero", "hamro", "unko", "usko", "tapai", "timi", "tapain",
   "maile", "taile", "usle", "unle",
   "kata", "kaha", "kina", "kasari", "kasko", "kati", "kun",
   "kasto", "khoi", "ke",
   "bhayo", "bhayena", "gareko", "garena", "garne", "garnu", "garna",
   "gar", "garchu", "garchha", "garxa", "hune",
   "hudaicha", "hudaina", "rahecha", "rahena", "hunu", "hunuhuncha",
   "ramro", "naramro", "thulo", "sano", "mitho", "piro", "garmi",
   "jado", "pani", "ani", "tara", "kinabhane", "bhanera", "bhanne",
   "dai", "didi", "bhai", "bahini", "aama", "baba", "sathi",
   "pugcha", "pugdaina", "sakcha", "sakdaina", "parcha", "pardaina",
   "parxa", "lagcha", "lagdaina", "milcha", "mildaina",
   "aja", "bholi", "hijo", "asti", "paxi", "agadi", "pachadi",
   "mathi", "tala", "bhitra", "bahira",
   "namaste", "dhanyabad", "maf", "kripaya", "hajur", "la", "hoina"]

/-- Membership of a tokenised word in the lexicon. -/
def isLexHit (w : List Char) : Bool :=
  NEPALI_INDICATORS.any (fun s => w == s.data)

/-- Fuel-driven tokeniser: maximal runs of word characters, which is what
re.findall of word-boundary, one-or-more word chars, word-boundary returns.
The fuel argument only serves structural termination; extractWords supplies
enough of it. -/
def extractWordsF : ℕ → List Char → List (List Char)
  | 0, _ => []
  | _ + 1, [] => []
  | n + 1, c :: cs =>
    if isWordChar c then
      ((c :: cs).takeWhile isWordChar) ::
        extractWordsF n ((c :: cs).dropWhile isWordChar)
    else extractWordsF n cs

/-- Tokenise a character list into the word list of the Python findall. -/
def extractWords (l : List Char) : List (List Char) := extractWordsF l.length l

/-- Mixed-script fallback of detect (app.py lines 198-201): some Devanagari
present below the 40 percent bar and at least one lexicon hit. -/
def mixedFallback (dev total hits : ℕ) : String :=
  if 0 < dev ∧ 100 * dev < 40 * total ∧ 1 ≤ hits then "nepglish" else "english"

/-- LanguageDetector.detect.  Float percentages are modelled exactly:
dev / total * 100 at least 40 is 40 * total at most 100 * dev, and the
lexicon ratio at least 0.25 is length at most 4 * hits. -/
def LanguageDetector.detect (text : String) : String :=
  let t := stripL text.data
  if t = [] then "english"
  else
    let dev := (t.filter isDevanagariChar).length
    let total := (t.filter (fun c => !(c = ' '))).length
    if total = 0 then "english"
    else if 40 * total ≤ 100 * dev then "devanagari"
    else
      let ws := extractWords (lowerL t)
      let hits := (ws.filter isLexHit).length
      if 3 ≤ ws.length then
        if ws.length ≤ 4 * hits then "nepglish"
        else mixedFallback dev total hits
      else if 2 ≤ hits then "nepglish"
      else mixedFallback dev total hits

/-- The word list detect computes for a given input. -/
def detectWords (text : String) : List (List Char) :=
  extractWords (lowerL (stripL text.data))

/-- The lexicon hit count detect computes for a given input. -/
def detectHits (text : String) : ℕ :=
  ((detectWords text).filter isLexHit).length

/-- The Devanagari character count detect computes for a given input. -/
def devCount (text : String) : ℕ :=
  ((stripL text.data).filter isDevanagariChar).length

/-- The non-space character count detect computes for a given input. -/
def totalNonSpace (text : String) : ℕ :=
  ((stripL text.data).filter (fun c => !(c = ' '))).length

/-! ## FAQHandler (app.py lines 331-368)

Simple keyword matcher over a fixed corpus.  The threshold parameter of
get_answer is part of the signature but never read by the body, exactly as
in the source. -/

/-- FAQ_DATA english register (app.py lines 335-342). -/
def FAQHandler.FAQ_DATA_EN : List (String × String) :=
  [("What is Kancha AI?",
    "Kancha AI is a multilingual chatbot assistant specifically designed for Nepali users. It supports English, Nepali (Devanagari), and Nepglish (Romanized Nepali)."),
   ("SEE exam information",
    "SEE (Secondary Education Examination) is the national level exam in Nepal for Grade 10 students. It\x27s conducted by National Examination Board (NEB)."),
   ("Dashain festival",
    "Dashain is the biggest festival in Nepal, celebrated for 15 days in September/October. It symbolizes the victory of good over evil."),
   ("IOE entrance guide",
    "IOE entrance exam is for admission to engineering colleges in Nepal. Preparation requires strong basics in Physics, Chemistry, and Mathematics."),
   ("Study tips",
    "Effective study tips: 1) Create a schedule 2) Take regular breaks 3) Practice problems 4) Review regularly 5) Get enough sleep."),
   ("Career guidance",
    "For career guidance: 1) Assess your interests 2) Research options 3) Talk to professionals 4) Consider job market 5) Plan your education.")]

/-- FAQ_DATA nepali register (app.py lines 343-347). -/
def FAQHandler.FAQ_DATA_NP : List (String × String) :=
  [("Kancha AI भनेको के हो?",
    "Kancha AI भनेको नेपाली प्रयोगकर्ताहरूको लागि विशेष रूपमा तयार गरिएको बहुभाषिक च्याटबट सहायक हो। यसले अङ्ग्रेजी, नेपाली (देवनागरी), र नेप्गलिस (रोमनाइज्ड नेपाली) समर्थन गर्दछ।"),
   ("SEE परीक्षा",
    "SEE (माध्यमिक शिक्षा परीक्षा) नेपालमा कक्षा १० का विद्यार्थीहरूको लागि राष्ट्रिय स्तरको परीक्षा हो। यो राष्ट्रिय परीक्षा बोर्ड (NEB) द्वारा आयोजना गरिन्छ।"),
   ("दशैं पर्व",
    "दशैं नेपालको सबैभन्दा ठूलो पर्व हो, सेप्टेम्बर/अक्टोबरमा १५ दिनसम्म मनाइन्छ। यसले सत्को माथि असत्को विजयलाई प्रतिनिधित्व गर्दछ।")]

/-- Substring occurrence test: needle occurs contiguously inside hay
(model of the Python expression needle in hay on strings). -/
def containsSeq (needle : List Char) : List Char → Bool
  | [] => needle == []
  | c :: cs => needle.isPrefixOf (c :: cs) || containsSeq needle cs

/-- FAQHandler.get_answer: substring keyword matching of the lowered,
stripped query against each stored question, first match wins (Python dict
iteration follows insertion order).  The threshold argument is ignored by
the body, as in the source. -/
def FAQHandler.get_answer (query language : String) (threshold : ℚ) :
    Option String :=
  let lang := if language = "en" || language = "np" then language else "en"
  let data := if lang = "np" then FAQHandler.FAQ_DATA_NP
              else FAQHandler.FAQ_DATA_EN
  let ql := stripL (lowerL query.data)
  data.findSome? (fun qa =>
    let qn := lowerL qa.1.data
    if ql == qn || containsSeq ql qn || containsSeq qn ql then some qa.2
    else none)

/-! ## FAQSearcher (faq_search.py lines 27-75)

The sentence-transformer embedding model and the floating point cosine
similarity are external collaborators; the corpus is therefore modelled as
a list of entries each carrying the similarity score the Python loop
computes for the current query.  The structure of the comparison and
selection logic is translated verbatim. -/

/-- One corpus entry together with the cosine similarity of the current
query against its stored embedding. -/
structure FAQScored where
  question : String
  answers : List (String × String)
  sim : ℚ

/-- Result dictionary of FAQSearcher.search. -/
structure SearchHit where
  found : Bool
  answer : Option (List (String × String))
  similarity : ℚ
  question : Option String

/-- The per-entry selection step of the FAQSearcher.search loop: keep the
strictly better score together with its answers and question. -/
def searchStep (acc : ℚ × Option (List (String × String)) × Option String)
    (e : FAQScored) : ℚ × Option (List (String × String)) × Option String :=
  if acc.1 < e.sim then (e.sim, some e.answers, some e.question) else acc

/-- FAQSearcher.search: scan for the best similarity starting from a best
score of 0 with a strict comparison; return found when the best score
reaches the threshold.  Returns none exactly when the Python code would
raise (subscripting best_match = None in the found branch, possible only
for non-positive thresholds). -/
def FAQSearcher.search (faq : List FAQScored) (threshold : ℚ) :
    Option SearchHit :=
  match faq with
  | [] => some ⟨false, none, 0, none⟩
  | _ =>
    let best := faq.foldl searchStep
      ((0 : ℚ), (none : Option (List (String × String))), (none : Option String))
    if threshold ≤ best.1 then
      match best.2.1 with
      | none => none
      | some a => some ⟨true, some a, best.1, best.2.2⟩
    else some ⟨false, none, best.1, best.2.2⟩

example :
    FAQHandler.get_answer "What is Kancha AI?" "en" (65/100) =
      some "Kancha AI is a multilingual chatbot assistant specifically designed for Nepali users. It supports English, Nepali (Devanagari), and Nepglish (Romanized Nepali)." := by
  decide
example : FAQHandler.get_answer "zzz unrelated" "en" (65/100) = none := by decide

/-! ## ResponseProcessor.clean (app.py lines 248-272)

The five re.sub passes are modelled by a single left-to-right scanner
scanSub instantiated with one matcher per pattern.  A matcher receives the
current suffix of the text; it returns the suffix that remains after the
leftmost-longest match at the current position, or none when the pattern
does not match at this position (in which case the scanner advances one
character, as re.sub does).  Fuel drives structural termination; a matcher
always consumes at least one character so the initial length is enough
fuel. -/

/-- Leftmost-scanning, non-overlapping substitute with fuel. -/
def scanSubF (m : List Char → Option (List Char)) (repl : List Char) :
    ℕ → List Char → List Char
  | 0, l => l
  | _ + 1, [] => []
  | n + 1, c :: cs =>
    match m (c :: cs) with
    | some rest => repl ++ scanSubF m repl n rest
    | none => c :: scanSubF m repl n cs

/-- re.sub of the pattern recognised by m with replacement repl. -/
def scanSub (m : List Char → Option (List Char)) (repl l : List Char) :
    List Char :=
  scanSubF m repl l.length l

/-- A matcher that consumes at least one character whenever it fires. -/
def Shrinks (m : List Char → Option (List Char)) : Prop :=
  ∀ l r, m l = some r → r.length < l.length

/-- The literal character list of the pattern piece http colon slash
slash. -/
def httpL : List Char := "http://".data

/-- The literal character list of the pattern piece https colon slash
slash. -/
def httpsL : List Char := "https://".data

/-- Recognise the regex piece https?:// at the head of the text and return
the remainder. -/
def schemeAt (l : List Char) : Option (List Char) :=
  if l.take 7 = httpL then some (l.drop 7)
  else if l.take 8 = httpsL then some (l.drop 8)
  else none

/-- Literal-prefix matcher: consume exactly lit at the head. -/
def dropLit (lit l : List Char) : Option (List Char) :=
  if l.take lit.length = lit then some (l.drop lit.length) else none

/-- The non-greedy tail dot-star-question close-bracket of the metadata
patterns: the dot of a default-flags Python regex does not cross a
newline, so this finds the first closing bracket with no newline before
it. -/
def findClose : List Char → Option (List Char)
  | [] => none
  | c :: cs => if c = ']' then some cs else if c = '\n' then none
               else findClose cs

/-- Character class of the regex piece backslash-w or hyphen. -/
def isWordDash (c : Char) : Bool := isWordChar c || c = '-'

/-- Matcher for a bracketed metadata pattern: the literal opening piece
(tag) followed by the non-greedy close. -/
def mTag (tag l : List Char) : Option (List Char) :=
  (dropLit tag l).bind findClose

/-- Matcher for the youtube watch URL pattern of app.py line 258. -/
def mYtWatch (l : List Char) : Option (List Char) :=
  (schemeAt l).bind fun r =>
    (match dropLit "www.youtube.com/watch?v=".data r with
     | some r2 => some r2
     | none => dropLit "youtube.com/watch?v=".data r).bind fun r2 =>
      if r2.takeWhile isWordDash = [] then none
      else some (r2.dropWhile isWordDash)

/-- Matcher for the youtu.be URL pattern of app.py line 260. -/
def mYtBe (l : List Char) : Option (List Char) :=
  (schemeAt l).bind fun r =>
    (dropLit "youtu.be/".data r).bind fun r2 =>
      if r2.takeWhile isWordDash = [] then none
      else some (r2.dropWhile isWordDash)

/-- Matcher for the catch-all URL pattern https?:// followed by one or
more non-whitespace characters (app.py line 262). -/
def mUrl (l : List Char) : Option (List Char) :=
  (schemeAt l).bind fun r =>
    if r.takeWhile (fun c => !isWS c) = [] then none
    else some (r.dropWhile (fun c => !isWS c))

/-- Opening literal of the FAQ-match metadata pattern. -/
def tagFAQ : List Char := "[FAQ Match:".data

/-- Opening literal of the similarity metadata pattern. -/
def tagSim : List Char := "[Similarity:".data

/-- Opening literal of the match metadata pattern. -/
def tagMatch : List Char := "[Match".data

/-- Replacement string for the youtube watch pattern. -/
def replYtWatch : List Char := "🔍 YouTube ma search gara: ".data

/-- Replacement string for the youtu.be pattern. -/
def replYtBe : List Char := "🔍 YouTube video search gara: ".data

/-- Replacement string for the catch-all URL pattern. -/
def replUrl : List Char := "🔗 [Link removed - Search instead]".data

/-- Collapse runs of three or more newlines to exactly two (model of
re.sub of backslash-n three-or-more to two), fuel-driven. -/
def collapseNLF : ℕ → List Char → List Char
  | 0, l => l
  | _ + 1, [] => []
  | n + 1, c :: cs =>
    if c = '\n' then
      (if 3 ≤ ((c :: cs).takeWhile (fun x => x = '\n')).length then
        ['\n', '\n']
       else (c :: cs).takeWhile (fun x => x = '\n')) ++
        collapseNLF n ((c :: cs).dropWhile (fun x => x = '\n'))
    else c :: collapseNLF n cs

/-- The newline-collapsing pass. -/
def collapseNL (l : List Char) : List Char := collapseNLF l.length l

/-- ResponseProcessor.clean on character lists: the three metadata
removals, the three URL substitutions, newline collapsing, and the final
strip, in source order. -/
def cleanL (l : List Char) : List Char :=
  stripL (collapseNL (scanSub mUrl replUrl (scanSub mYtBe replYtBe
    (scanSub mYtWatch replYtWatch (scanSub (mTag tagMatch) []
      (scanSub (mTag tagSim) [] (scanSub (mTag tagFAQ) [] l)))))))

/-- ResponseProcessor.clean on strings. -/
def ResponseProcessor.clean (s : String) : String := ⟨cleanL s.data⟩

/-- A text starts with a well-formed HTTP or HTTPS URL: the scheme
followed by at least one non-whitespace character. -/
def startsWithUrl (l : List Char) : Bool :=
  match schemeAt l with
  | some (c :: _) => !isWS c
  | _ => false

/-- A text contains a well-formed HTTP or HTTPS URL somewhere. -/
def containsUrlB : List Char → Bool
  | [] => false
  | c :: cs => startsWithUrl (c :: cs) || containsUrlB cs

/-- Every opening bracket in the text is immediately followed by a capital
L, as in the bracketed URL replacement string; texts with this shape are
untouched by the three metadata removal patterns, whose opening literals
continue with F, S and M. -/
def bracketOk : List Char → Bool
  | [] => true
  | c :: cs =>
    if c = '[' then decide (cs.head? = some 'L') && bracketOk cs
    else bracketOk cs

/-- The text contains three consecutive newlines somewhere. -/
def has3NL : List Char → Bool
  | [] => false
  | c :: cs => (c = '\n' && decide (cs.take 2 = ['\n', '\n'])) || has3NL cs


example :
    ResponseProcessor.clean "Check https://youtu.be/abc123 for more" =
      "Check 🔍 YouTube video search gara:  for more" := by decide
example :
    ResponseProcessor.clean "[FAQ Match: 88%] hi" = "hi" := by decide
example :
    ResponseProcessor.clean "go http://x.com now" =
      "go 🔗 [Link removed - Search instead] now" := by decide
example : containsUrlB "go http://x.com now".data = true := by decide
example :
    containsUrlB (cleanL "go http://x.com now".data) = false := by decide
example :
    ResponseProcessor.clean "a[Mat[Match:]ch]b" = "a[Match]b" := by decide
example :
    ResponseProcessor.clean "a[Match]b" = "ab" := by decide

/-! ## WebSearcher (web_search.py)

HTTP transport and the provider-specific HTML extraction are external
collaborators: the transport is an oracle from the (rewritten) query string
to a network outcome, and each extraction step is an oracle from the
response body to either a result list or a raised parse error.  Every
try/except of the source is modelled at the site it guards: a network
outcome exn, a non-200 status, or an extraction error all degrade to the
empty list exactly where the source degrades them. -/

/-- One extracted search result (title, snippet, source, date, url hint). -/
structure SearchResult where
  title : String
  snippet : String
  source : String
  date : String
  url_hint : String
deriving DecidableEq

/-- Outcome of one HTTP GET: a raised network exception, or a response
with a status code and a body. -/
inductive FetchResult
  | exn
  | resp (status : ℤ) (body : String)

/-- The external collaborators of WebSearcher: one transport oracle and
one extraction oracle per provider, plus the rendered current year used in
query rewriting. -/
structure Providers where
  yearStr : String
  fetchDDG : String → FetchResult
  fetchGoogle : String → FetchResult
  fetchOK : String → FetchResult
  fetchEK : String → FetchResult
  fetchSP : String → FetchResult
  parseDDG : String → ℕ → Except Unit (List SearchResult)
  parseGoogle : String → ℕ → Except Unit (List SearchResult)
  parseOK : String → Except Unit (List SearchResult)
  parseEK : String → Except Unit (List SearchResult)
  parseSP : String → Except Unit (List SearchResult)

/-- A concrete provider environment in which every transport raises a
network exception and every extractor raises a parse error. -/
def deadProviders : Providers :=
  { yearStr := "2025",
    fetchDDG := fun _ => FetchResult.exn,
    fetchGoogle := fun _ => FetchResult.exn,
    fetchOK := fun _ => FetchResult.exn,
    fetchEK := fun _ => FetchResult.exn,
    fetchSP := fun _ => FetchResult.exn,
    parseDDG := fun _ _ => Except.error (),
    parseGoogle := fun _ _ => Except.error (),
    parseOK := fun _ => Except.error (),
    parseEK := fun _ => Except.error (),
    parseSP := fun _ => Except.error () }

/-- Political keyword list of _is_political_query. -/
def WebSearcher.political_keywords : List String :=
  ["prime minister", "president", "pm", "government",
   "minister", "cabinet", "head of state", "head of government",
   "प्रधानमन्त्री", "राष्ट्रपति", "सरकार", "मन्त्री"]

/-- _is_political_query: some keyword occurs in the lowered query. -/
def WebSearcher.is_political_query (query : String) : Bool :=
  WebSearcher.political_keywords.any
    (fun k => containsSeq k.data (lowerL query.data))

/-- The shared request shape of every provider function in web_search.py:
a network exception gives the empty list (the except arm), a non-success
status gives the empty list, and otherwise the provider-specific
extraction runs, its own raised errors degrading to the empty list. -/
def fetchParse (fr : FetchResult)
    (parse : String → Except Unit (List SearchResult)) : List SearchResult :=
  match fr with
  | .exn => []
  | .resp st body =>
    if st = 200 then
      match parse body with
      | .error _ => []
      | .ok rs => rs
    else []

/-- _duckduckgo_search: rewrite the query, fetch, drop non-200 and network
failures, extract (extraction errors degrade to empty inside
_parse_duckduckgo_results). -/
def WebSearcher.duckduckgo_search (p : Providers) (query : String)
    (maxResults : ℕ) (isPolitical : Bool) : List SearchResult :=
  fetchParse
    (p.fetchDDG
      (if isPolitical then
        query ++ " site:.np OR site:.com.np latest news update"
      else query ++ " " ++ p.yearStr ++ " Nepal"))
    (fun body => p.parseDDG body maxResults)

/-- _try_google_search: fetch with the Nepal-suffixed query; non-200,
network failure and extraction errors all give the empty list. -/
def WebSearcher.try_google_search (p : Providers) (query : String)
    (maxResults : ℕ) : List SearchResult :=
  fetchParse (p.fetchGoogle (query ++ " Nepal"))
    (fun body => p.parseGoogle body maxResults)

/-- _search_onlinekhabar. -/
def WebSearcher.search_onlinekhabar (p : Providers) (query : String) :
    List SearchResult :=
  fetchParse (p.fetchOK query) p.parseOK

/-- _search_ekantipur. -/
def WebSearcher.search_ekantipur (p : Providers) (query : String) :
    List SearchResult :=
  fetchParse (p.fetchEK query) p.parseEK

/-- _search_setopati. -/
def WebSearcher.search_setopati (p : Providers) (query : String) :
    List SearchResult :=
  fetchParse (p.fetchSP query) p.parseSP

/-- _search_nepal_news: up to two OnlineKhabar results, then one from
Ekantipur and one from Setopati while below maxResults, truncated. -/
def WebSearcher.search_nepal_news (p : Providers) (query : String)
    (maxResults : ℕ) : List SearchResult :=
  let r1 := (WebSearcher.search_onlinekhabar p query).take 2
  let r2 := if r1.length < maxResults then
              r1 ++ (WebSearcher.search_ekantipur p query).take 1
            else r1
  let r3 := if r2.length < maxResults then
              r2 ++ (WebSearcher.search_setopati p query).take 1
            else r2
  r3.take maxResults

/-- _search_political_info: rewrite into recency-biased phrasings, try
DuckDuckGo on each, fall back to the regional news sites. -/
def WebSearcher.search_political_info (p : Providers) (query : String)
    (maxResults : ℕ) : List SearchResult :=
  let ql := lowerL query.data
  let queries : List String :=
    if containsSeq "prime minister".data ql || containsSeq "pm".data ql ||
        containsSeq "प्रधानमन्त्री".data query.data then
      ["Nepal current Prime Minister 2025 2026 latest",
       "Who is Prime Minister of Nepal now",
       "नयाँ प्रधानमन्त्री नेपाल २०२६"]
    else if containsSeq "president".data ql ||
        containsSeq "राष्ट्रपति".data query.data then
      ["Nepal President 2025 2026 current",
       "Who is President of Nepal now",
       "नेपालको राष्ट्रपति २०२६"]
    else [query ++ " Nepal latest 2025 2026"]
  match queries.findSome? (fun q =>
      let rs := WebSearcher.duckduckgo_search p q maxResults true
      if rs = [] then none else some rs) with
  | some rs => rs
  | none => WebSearcher.search_nepal_news p query maxResults

/-- _enhanced_search: DuckDuckGo first, then Google, else empty. -/
def WebSearcher.enhanced_search (p : Providers) (query : String)
    (maxResults : ℕ) : List SearchResult :=
  let r := WebSearcher.duckduckgo_search p query maxResults false
  if r ≠ [] then r
  else
    let g := WebSearcher.try_google_search p query maxResults
    if g ≠ [] then g else []

/-- WebSearcher.search (web_search.py lines 21-35). -/
def WebSearcher.search (p : Providers) (query : String) (maxResults : ℕ) :
    List SearchResult :=
  if WebSearcher.is_political_query query then
    WebSearcher.search_political_info p query maxResults
  else WebSearcher.enhanced_search p query maxResults

/-! ## MessageValidator, error formatting, and process_user_message
(app.py lines 210-239, 274-325, 543-615) -/

/-- Head-literal test on character lists (model of str.startswith). -/
def startsWithL (p l : List Char) : Bool := l.take p.length = p

/-- Collapse each maximal whitespace run to a single space (model of
re.sub of one-or-more whitespace to a single space), fuel-driven. -/
def collapseWSF : ℕ → List Char → List Char
  | 0, l => l
  | _ + 1, [] => []
  | n + 1, c :: cs =>
    if isWS c then ' ' :: collapseWSF n ((c :: cs).dropWhile isWS)
    else c :: collapseWSF n cs

/-- Replace every occurrence of the literal lit by nothing (model of
str.replace with an empty replacement). -/
def replaceAllL (lit l : List Char) : List Char := scanSub (dropLit lit) [] l

/-- MessageValidator.validate (app.py lines 213-232). -/
def MessageValidator.validate (message : String) : Bool × Option String :=
  if message = "" then (false, some "Message cannot be empty")
  else
    let m := stripL message.data
    if m.length < 2 then (false, some "Message too short (min 2 chars)")
    else if 2000 < m.length then
      (false, some "Message too long (max 2000 chars)")
    else (true, none)

/-- MessageValidator.sanitize (app.py lines 234-239). -/
def MessageValidator.sanitize (message : String) : String :=
  ⟨stripL (collapseWSF message.data.length message.data)⟩

/-- ResponseProcessor.format_error (app.py lines 274-325): classify the
fault by substrings of its lowered text, then pick the register. -/
def ResponseProcessor.format_error (error script : String) : String :=
  let es := lowerL error.data
  let e100 : String := ⟨error.data.take 100⟩
  let pick : String → String → String → String := fun dv np en =>
    if script = "devanagari" then dv
    else if script = "nepglish" then np else en
  if containsSeq "quota".data es || containsSeq "429".data es then
    pick
      "**⚠️ Request Limit पुग्यो**\n\nकृपया १-२ मिनेट पर्खनुहोस्। Free tier मा limited requests छन्।\n\n**सुझाव:**\n• छोटो प्रश्न सोध्नुहोस्\n• केही मिनेट पछि पुनः प्रयास गर्नुहोस्\n• एकै समयमा धेरै प्रश्न नसोध्नुहोस्"
      "**⚠️ Request Limit Reached**\n\nKripaya 1-2 minute wait garnus. Free tier ma limited requests chan.\n\n**Suggestions:**\n• Ask concise questions\n• Try again after a few minutes\n• Don\x27t send multiple questions at once"
      "**⚠️ Request Limit Reached**\n\nPlease wait 1-2 minutes. Free tier has limited requests.\n\n**Suggestions:**\n• Ask concise questions\n• Try again after a few minutes\n• Don\x27t send multiple questions at once"
  else if containsSeq "timeout".data es then
    pick
      "**⏱️ Response Timeout**\n\nAI लाई समय लाग्यो। छोटो message try गर्नुहोस् वा केही समय पछि फेरि सोध्नुहोस्।"
      "**⏱️ Response Timeout**\n\nAI lai time lagyo. Try a shorter message or ask again later."
      "**⏱️ Response Timeout**\n\nAI took too long to respond. Try a shorter message or ask again later."
  else
    pick
      ("**❌ त्रुटि भयो**\n\nकृपया फेरि प्रयास गर्नुहोस्।\n\nError: " ++ e100)
      ("**❌ Error Bhayo**\n\nKripaya feri try garnus.\n\nError: " ++ e100)
      ("**❌ An Error Occurred**\n\nPlease try again.\n\nError: " ++ e100)

/-- The language_map lookup of process_user_message (app.py line 577). -/
def languageFor (script : String) : String :=
  (([("devanagari", "np"), ("nepglish", "np"), ("english", "en")].lookup
    script).getD "en")

/-- SessionStateManager.add_to_history (app.py lines 502-509). -/
def addToHistory (hist : List String) (query : String) : List String :=
  if !hist.contains query ∧ 2 < (stripL query.data).length ∧
      !startsWithL "/".data query.data then
    (query :: hist).take 5
  else hist

/-- Outcome of the summarize-command step of process_user_message: either
the early usage reply, or the (possibly rewritten) query to continue
with. -/
inductive SummarizeStep
  | usage (msg : String)
  | query (q : String)
deriving DecidableEq

/-- The summarize-command handling of app.py lines 565-573. -/
def summarizeStep (ui : String) : SummarizeStep :=
  if startsWithL "/summarize".data ui.data ||
      startsWithL "/summary".data ui.data then
    let tts := stripL (replaceAllL "/summary".data
      (replaceAllL "/summarize".data ui.data))
    if tts = [] then
      .usage (if LanguageDetector.detect ui = "devanagari" then
          "**📝 Summarize Command**\n\nकृपया summarize गर्नको लागि text प्रदान गर्नुहोस्।"
        else "**📝 Summarize Command**\n\nPlease provide text to summarize.")
    else
      .query ("Please summarize this text in the same language/script: " ++
        (⟨tts⟩ : String))
  else .query ui

/-- Session state relevant to a request: chat transcript, query history,
the rate governor call log, and a ghost counter of external model
invocations used to state the no-model-call properties. -/
structure ChatState where
  messages : List (String × String)
  queryHistory : List String
  rlCalls : List ℚ
  modelCalls : ℕ

/-- process_user_message (app.py lines 543-615).  The external model is a
collaborator returning either a completion or a raised fault text; now is
the wall-clock instant seen by the rate governor.  The returned Option
String is the Python return value (none in all but the summarize-usage
path). -/
def process_user_message (model : String → String → Except String String)
    (now : ℚ) (st : ChatState) (input : String) :
    ChatState × Option String :=
  if (MessageValidator.validate input).1 = false then (st, none)
  else
    let ui := MessageValidator.sanitize input
    let st1 : ChatState :=
      { st with queryHistory := addToHistory st.queryHistory ui }
    let st2 : ChatState :=
      { st1 with messages := st1.messages ++ [("user", ui)] }
    match summarizeStep ui with
    | .usage msg => (st2, some msg)
    | .query q =>
      let script := LanguageDetector.detect q
      let language := languageFor script
      match FAQHandler.get_answer q language (13/20) with
      | some ans =>
        let resp := (if script = "devanagari" then "**📌 तत्काल उत्तर:**\n\n"
                     else "**📌 Quick Answer:**\n\n") ++ ans
        ({ st2 with messages := st2.messages ++ [("assistant", resp)] }, none)
      | none =>
        match RateLimiter.wait_if_needed 5 st2.rlCalls now with
        | none =>
          ({ st2 with messages := st2.messages ++
            [("assistant", ResponseProcessor.format_error
              "list index out of range" (LanguageDetector.detect q))] }, none)
        | some (rl2, _) =>
          let st3 : ChatState :=
            { st2 with rlCalls := rl2, modelCalls := st2.modelCalls + 1 }
          match model q script with
          | .ok r =>
            ({ st3 with messages := st3.messages ++
              [("assistant", ResponseProcessor.clean r)] }, none)
          | .error e =>
            let emsg := "Failed to get AI response: " ++
              (⟨e.data.take 100⟩ : String)
            ({ st3 with messages := st3.messages ++
              [("assistant", ResponseProcessor.format_error emsg
                (LanguageDetector.detect q))] }, none)

example : LanguageDetector.detect "" = "english" := by decide
example : LanguageDetector.detect "ma cha" = "nepglish" := by decide
example : LanguageDetector.detect "hello world out there" = "english" := by decide
example : LanguageDetector.detect "नमस्ते" = "devanagari" := by decide
example : LanguageDetector.detect "timro naam k ho?" = "nepglish" := by decide

/-! ## Claim C9: construction with non-positive calls_per_minute -/

/-- Claim C9 counterexample: the claim states that RateLimiter
construction signals a configuration error for every non-positive
calls_per_minute; in the source the constructor performs no validation, so
at the concrete argument 0 no error is signalled and the claim is false. -/
theorem claim_C9_counterexample :
    ¬ (∀ cpm : ℤ, cpm ≤ 0 →
        ∃ e, RateLimiter.init cpm = Except.error e) := by
  intro h
  obtain ⟨e, he⟩ := h 0 le_rfl
  simp [RateLimiter.init] at he

/-- Claim C9 amended: construction accepts any calls_per_minute without
validation and returns the stored configuration with an empty call log;
for a non-positive calls_per_minute the failure only surfaces at the first
wait_if_needed call, which raises (IndexError reading the first element of
the empty pruned log). -/
theorem claim_C9_amended (cpm : ℤ) (hcpm : cpm ≤ 0) :
    RateLimiter.init cpm = Except.ok (cpm, []) ∧
    ∀ now : ℚ, RateLimiter.wait_if_needed cpm [] now = none := by
  refine ⟨rfl, fun now => ?_⟩
  simp only [RateLimiter.wait_if_needed, List.filter_nil]
  split
  · rfl
  · rename_i hc
    exfalso
    simp only [List.length_nil, Nat.cast_zero, ge_iff_le, not_le] at hc
    omega

/-- Witness for claim C9 amended at calls_per_minute minus one. -/
theorem claim_C9_amended_witness :
    RateLimiter.init (-1) = Except.ok (-1, []) ∧
    ∀ now : ℚ, RateLimiter.wait_if_needed (-1) [] now = none :=
  claim_C9_amended (-1) (by norm_num)

/-! ## Claim C1: the trailing-window admission bound -/

/-- Every element of the pruned log is an element of the original log and
is less than 60 seconds old. -/
theorem mem_pruned (calls : List ℚ) (now t : ℚ)
    (h : t ∈ calls.filter (fun t => decide (now - t < 60))) :
    t ∈ calls ∧ now - t < 60 := by
  have := List.mem_filter.mp h
  exact ⟨this.1, by simpa using this.2⟩

/-- One wait_if_needed step, called with a log of past instants, succeeds
with a log of at most calls_per_minute entries, all of which lie at or
before the instant at which the call returns. -/
theorem wait_step_bound (cpm : ℤ) (hcpm : 1 ≤ cpm) (calls : List ℚ)
    (now : ℚ) (hmono : ∀ t ∈ calls, t ≤ now) (log2 : List ℚ) (ret : ℚ)
    (h : RateLimiter.wait_if_needed cpm calls now = some (log2, ret)) :
    (log2.length : ℤ) ≤ cpm ∧ now ≤ ret ∧ ∀ t ∈ log2, t ≤ ret := by
  simp only [RateLimiter.wait_if_needed] at h
  split at h
  case isTrue hge =>
    split at h
    case h_1 hp => exact absurd h (by simp)
    case h_2 oldest rest hp =>
      have hold : oldest ∈ calls ∧ now - oldest < 60 := by
        refine mem_pruned calls now oldest ?_
        rw [hp]; exact List.mem_cons_self _ _
      have h0 : (0 : ℚ) ≤ now - oldest := by
        have := hmono oldest hold.1; linarith
      have hfl0 : 0 ≤ Rat.floor (now - oldest) :=
        Rat.le_floor.mpr (by exact_mod_cast h0)
      have hfl59 : Rat.floor (now - oldest) ≤ 59 := by
        by_contra hcon
        push_neg at hcon
        have h60 : (60 : ℤ) ≤ Rat.floor (now - oldest) := by omega
        have := Rat.le_floor.mp h60
        have hlt := hold.2
        norm_num at this
        linarith
      have htd : tdSeconds (now - oldest) = Rat.floor (now - oldest) := by
        unfold tdSeconds
        exact Int.emod_eq_of_lt hfl0 (by omega)
      split at h
      case isTrue hws =>
        obtain ⟨hlog, hret⟩ := Prod.mk.injEq .. ▸ Option.some.injEq .. ▸ h
        refine ⟨?_, ?_, ?_⟩
        · rw [← hlog]; simpa using hcpm
        · rw [← hret]
          split
          case isTrue hs => linarith
          case isFalse hs => linarith
        · intro t ht
          rw [← hlog] at ht
          simp only [List.mem_singleton] at ht
          subst ht
          rw [← hret]
          split
          case isTrue hs => linarith
          case isFalse hs => linarith
      case isFalse hws =>
        exfalso
        rw [htd] at hws
        omega
  case isFalse hge =>
    obtain ⟨hlog, hret⟩ := Prod.mk.injEq .. ▸ Option.some.injEq .. ▸ h
    push_neg at hge
    refine ⟨?_, by rw [← hret], ?_⟩
    · rw [← hlog]
      simp only [List.length_append, List.length_singleton]
      push_cast
      omega
    · intro t ht
      rw [← hlog] at ht
      rcases List.mem_append.mp ht with hin | hin
      · have := mem_pruned calls now t hin
        rw [← hret]; exact hmono t this.1
      · simp only [List.mem_singleton] at hin
        subst hin; rw [← hret]

/-- The run-level invariant: starting from a log of at most
calls_per_minute past instants, every state reached by runCallsGo keeps
the log at or below calls_per_minute entries. -/
theorem runGo_inv (cpm : ℤ) (hcpm : 1 ≤ cpm) :
    ∀ (arrivals log adms : List ℚ) (t : ℚ) (flog fadms : List ℚ),
      (∀ x ∈ log, x ≤ t) → (log.length : ℤ) ≤ cpm →
      runCallsGo cpm arrivals log adms t = some (flog, fadms) →
      (flog.length : ℤ) ≤ cpm := by
  intro arrivals
  induction arrivals with
  | nil =>
    intro log adms t flog fadms _ hlen h
    simp only [runCallsGo] at h
    obtain ⟨hlog, _⟩ := Prod.mk.injEq .. ▸ Option.some.injEq .. ▸ h
    rw [← hlog]; exact hlen
  | cons a rest ih =>
    intro log adms t flog fadms hmono hlen h
    simp only [runCallsGo] at h
    set now := max a t with hnow
    have hmono2 : ∀ x ∈ log, x ≤ now := fun x hx =>
      le_trans (hmono x hx) (le_max_right a t)
    cases hw : RateLimiter.wait_if_needed cpm log now with
    | none => rw [hw] at h; exact absurd h (by simp)
    | some p =>
      obtain ⟨log2, ret⟩ := p
      rw [hw] at h
      have hs := wait_step_bound cpm hcpm log now hmono2 log2 ret hw
      exact ih log2 (ret :: adms) ret flog fadms hs.2.2 hs.1 h

/-- Concrete run used by the claim C1 counterexample and witness:
calls_per_minute 2, arrivals at 0 s, 1 s, 2 s and 60.6 s.  The third call
sleeps until 60.5 s and resets the log, so the final log is the stale
arrival instants and the admission instants are 0, 1, 60.5 and 60.6. -/
theorem runCalls_example_eval :
    runCalls 2 [0, 1, 2, 303/5] =
      some ([2, 303/5], [0, 1, 121/2, 303/5]) := by
  norm_num [runCalls, runCallsGo, RateLimiter.wait_if_needed, tdSeconds,
    Rat.floor, List.filter, max_def]

/-- Claim C1 counterexample: the claim, taken over the admission instants
at which wait_if_needed actually returns control, is false.  With
calls_per_minute 2 and arrivals 0, 1, 2 and 60.6 seconds, the run admits
at 0, 1, 60.5 and 60.6 seconds: the trailing 60-second window ending at
60.6 s contains the three admissions 1, 60.5 and 60.6.  The post-wait
reset erases the window memory and the recorded timestamp of the sleeping
call is its pre-sleep arrival instant, so the bound fails. -/
theorem claim_C1_counterexample :
    ¬ (∀ cpm : ℤ, 0 < cpm → ∀ arrivals log adms,
        runCalls cpm arrivals = some (log, adms) →
        ∀ T : ℚ, (windowCount adms T : ℤ) ≤ cpm) := by
  intro h
  have h3 := h 2 (by norm_num) [0, 1, 2, 303/5] [2, 303/5]
    [0, 1, 121/2, 303/5] runCalls_example_eval (303/5)
  norm_num [windowCount, List.filter] at h3

/-- Claim C1 amended: the bound the code does maintain is on the recorded
call log, not on the admission instants: after any run with a positive
calls_per_minute, the stored log never holds more than calls_per_minute
timestamps, hence no trailing 60-second window ever contains more than
calls_per_minute recorded timestamps.  The bound on actual admission
instants is refuted by the counterexample. -/
theorem claim_C1_amended (cpm : ℤ) (arrivals log adms : List ℚ) (T : ℚ)
    (hcpm : 1 ≤ cpm) (hrun : runCalls cpm arrivals = some (log, adms)) :
    (log.length : ℤ) ≤ cpm ∧ (windowCount log T : ℤ) ≤ cpm := by
  have hlen : (log.length : ℤ) ≤ cpm := by
    refine runGo_inv cpm hcpm arrivals [] [] 0 log adms ?_ ?_ hrun
    · intro x hx; exact absurd hx (List.not_mem_nil x)
    · simp only [List.length_nil, Nat.cast_zero]
      omega
  refine ⟨hlen, ?_⟩
  have hw : windowCount log T ≤ log.length := by
    unfold windowCount
    exact List.length_filter_le _ _
  omega

/-- Witness for claim C1 amended on the concrete counterexample run. -/
theorem claim_C1_amended_witness :
    (2 : ℤ) ≥ 1 ∧
    (([2, 303/5] : List ℚ).length : ℤ) ≤ 2 ∧
    (windowCount [2, 303/5] (303/5) : ℤ) ≤ 2 :=
  ⟨by norm_num,
   claim_C1_amended 2 [0, 1, 2, 303/5] [2, 303/5] [0, 1, 121/2, 303/5]
     (303/5) (by norm_num) runCalls_example_eval⟩

/-! ## Support lemmas on stripL and extractWords -/

/-- The stripped text is a contiguous piece of the original text. -/
theorem stripL_isInfix (l : List Char) : stripL l <:+: l := by
  unfold stripL
  have h1 : (l.dropWhile isWS).reverse.dropWhile isWS <:+
      (l.dropWhile isWS).reverse := List.dropWhile_suffix isWS
  have h2 : ((l.dropWhile isWS).reverse.dropWhile isWS).reverse <+:
      l.dropWhile isWS := by
    rw [← List.reverse_suffix ]
    simpa using h1
  have h3 : l.dropWhile isWS <:+ l := List.dropWhile_suffix isWS
  exact h2.isInfix.trans h3.isInfix

/-- Stripping an all-whitespace text gives the empty text. -/
theorem stripL_all_ws (l : List Char) (h : ∀ c ∈ l, isWS c = true) :
    stripL l = [] := by
  unfold stripL
  rw [List.dropWhile_eq_nil_iff.mpr h]
  rfl

/-- The head of a non-trivial dropWhile result fails the predicate. -/
theorem dropWhile_head_not (p : Char → Bool) :
    ∀ (l : List Char) (c : Char) (cs : List Char),
      l.dropWhile p = c :: cs → p c = false := by
  intro l
  induction l with
  | nil => intro c cs h; exact absurd h (by simp)
  | cons x xs ih =>
    intro c cs h
    rw [List.dropWhile_cons] at h
    split at h
    · exact ih c cs h
    · rename_i hx
      obtain ⟨h1, _⟩ := List.cons.injEq .. ▸ h
      rw [← h1]
      exact Bool.not_eq_true _ ▸ hx

/-- The head of a non-empty stripped text is not whitespace. -/
theorem stripL_head_not_ws (l : List Char) (c : Char) (cs : List Char)
    (h : stripL l = c :: cs) : isWS c = false := by
  have hp : stripL l <+: l.dropWhile isWS := by
    unfold stripL
    rw [← List.reverse_suffix ]
    simpa using List.dropWhile_suffix (l := (l.dropWhile isWS).reverse) isWS
  obtain ⟨t, ht⟩ := hp
  rw [h] at ht
  exact dropWhile_head_not isWS l c (cs ++ t) (by rw [← ht]; simp)

/-- A non-empty stripped text has at least one non-space character, so the
total character count detect divides by is positive. -/
theorem stripL_total_pos (l : List Char) (c : Char) (cs : List Char)
    (h : stripL l = c :: cs) :
    ((stripL l).filter (fun c => !(c = ' '))).length ≠ 0 := by
  have hc := stripL_head_not_ws l c cs h
  have hcs : ¬ (c = ' ') := by
    intro he
    rw [he] at hc
    simp [isWS] at hc
  rw [h]
  simp [List.filter, hcs]

/-- Fuel irrelevance for the tokeniser: any fuel at least the text length
gives the same tokens. -/
theorem extractWordsF_congr :
    ∀ (n₁ n₂ : ℕ) (l : List Char), l.length ≤ n₁ → l.length ≤ n₂ →
      extractWordsF n₁ l = extractWordsF n₂ l := by
  intro n₁
  induction n₁ with
  | zero =>
    intro n₂ l h1 _
    have : l = [] := List.length_eq_zero.mp (Nat.le_zero.mp h1)
    subst this
    cases n₂ <;> rfl
  | succ k ih =>
    intro n₂ l h1 h2
    cases l with
    | nil => cases n₂ <;> rfl
    | cons c cs =>
      cases n₂ with
      | zero => exact absurd h2 (by simp)
      | succ m =>
        have h1b : cs.length ≤ k := by simpa using h1
        have h2b : cs.length ≤ m := by simpa using h2
        simp only [extractWordsF]
        split
        · rename_i hw
          congr 1
          have hd : ((c :: cs).dropWhile isWordChar).length ≤ cs.length := by
            rw [List.dropWhile_cons, if_pos hw]
            exact (List.dropWhile_suffix isWordChar).length_le
          exact ih _ _ (le_trans hd h1b) (le_trans hd h2b)
        · exact ih _ _ h1b h2b

/-- Tokeniser equation: word-character head starts a maximal word run. -/
theorem extractWords_cons_word (c : Char) (cs : List Char)
    (h : isWordChar c = true) :
    extractWords (c :: cs) = ((c :: cs).takeWhile isWordChar) ::
      extractWords ((c :: cs).dropWhile isWordChar) := by
  unfold extractWords
  simp only [List.length_cons, extractWordsF, h, if_pos]
  congr 1
  have hd : ((c :: cs).dropWhile isWordChar).length ≤ cs.length := by
    rw [List.dropWhile_cons, if_pos h]
    exact (List.dropWhile_suffix isWordChar).length_le
  exact extractWordsF_congr _ _ _ hd le_rfl

/-- Tokeniser equation: a non-word head is skipped. -/
theorem extractWords_cons_not (c : Char) (cs : List Char)
    (h : isWordChar c = false) :
    extractWords (c :: cs) = extractWords cs := by
  unfold extractWords
  simp only [List.length_cons, extractWordsF, h]
  rfl

/-! ## Claim C5: classifier totality -/

/-- Claim C5: detect is a total function returning exactly one of the
three register tags for every string, and empty or all-whitespace input
classifies as english.  (Totality and absence of exceptions hold by
construction of the model: every branch of the source returns one of the
three literals.) -/
theorem claim_C5 (s : String) :
    (LanguageDetector.detect s = "devanagari" ∨
     LanguageDetector.detect s = "nepglish" ∨
     LanguageDetector.detect s = "english") ∧
    ((∀ c ∈ s.data, isWS c = true) → LanguageDetector.detect s = "english") := by
  constructor
  · simp only [LanguageDetector.detect, mixedFallback]
    repeat' split
    all_goals simp
  · intro hws
    have h0 : stripL s.data = [] := stripL_all_ws s.data hws
    simp only [LanguageDetector.detect, h0, if_pos]

/-- Witness for claim C5 at a one-character all-whitespace input. -/
theorem claim_C5_witness : LanguageDetector.detect " " = "english" :=
  (claim_C5 " ").2 (by decide)

/-! ## Claim C10: short-input Romanized rule -/

/-- Claim C10: an input with no native-script characters, fewer than three
word tokens, and at least two lexicon hits classifies as nepglish (the
short-input branch at app.py line 194). -/
theorem claim_C10 (s : String)
    (hdev : ∀ c ∈ s.data, isDevanagariChar c = false)
    (hlen : (detectWords s).length < 3)
    (hhits : 2 ≤ detectHits s) :
    LanguageDetector.detect s = "nepglish" := by
  have hne : stripL s.data ≠ [] := by
    intro h0
    have : detectWords s = [] := by
      unfold detectWords
      rw [h0]
      rfl
    unfold detectHits at hhits
    rw [this] at hhits
    simp at hhits
  obtain ⟨c, cs, hcons⟩ : ∃ c cs, stripL s.data = c :: cs := by
    cases h : stripL s.data with
    | nil => exact absurd h hne
    | cons c cs => exact ⟨c, cs, rfl⟩
  have htot := stripL_total_pos s.data c cs hcons
  have hdev0 : (stripL s.data).filter isDevanagariChar = [] := by
    rw [List.filter_eq_nil_iff]
    intro a ha
    have : a ∈ s.data := (stripL_isInfix s.data).mem ha
    simp [hdev a this]
  unfold detectHits detectWords at hhits
  unfold detectWords at hlen
  simp only [LanguageDetector.detect]
  rw [if_neg hne, if_neg htot, if_neg ?hdev]
  case hdev =>
    rw [hdev0]
    simp only [List.length_nil, Nat.mul_zero]
    omega
  rw [if_neg (Nat.not_le.mpr hlen), if_pos hhits]

/-- Witness for claim C10 at the two-token lexicon input ma cha. -/
theorem claim_C10_witness : LanguageDetector.detect "ma cha" = "nepglish" :=
  claim_C10 "ma cha" (by decide) (by decide) (by decide)

/-! ## Claim C4: the Romanized rule for inputs of three or more tokens -/

/-- Claim C4 counterexample: the claim adds a lexicon-hit-count
disjunct (three or more hits suffice for inputs of three or more tokens)
that the code does not implement: the code only tests the hit ratio.  A
13-token input with exactly 3 lexicon hits (ma, cha, ho) has ratio 3/13,
below 0.25, and classifies as english, not nepglish. -/
theorem claim_C4_counterexample :
    ¬ (∀ s : String, 100 * devCount s < 40 * totalNonSpace s →
        ((3 ≤ detectHits s ∧ 3 ≤ (detectWords s).length) ∨
          (detectWords s).length ≤ 4 * detectHits s) →
        LanguageDetector.detect s = "nepglish") := by
  intro h
  have h2 := h "ma cha ho one two three four five six seven eight nine ten"
    (by decide) (by decide)
  exact absurd h2 (by decide)

/-- Claim C4 amended: with the unimplemented hit-count disjunct removed,
the rule holds: an input whose Devanagari share is below 40 percent, with
at least three word tokens, and whose lexicon-hit ratio is at least a
quarter of the tokens, classifies as nepglish. -/
theorem claim_C4_amended (s : String)
    (hratio : 100 * devCount s < 40 * totalNonSpace s)
    (h3 : 3 ≤ (detectWords s).length)
    (hhits : (detectWords s).length ≤ 4 * detectHits s) :
    LanguageDetector.detect s = "nepglish" := by
  have hne : stripL s.data ≠ [] := by
    intro h0
    have : detectWords s = [] := by
      unfold detectWords
      rw [h0]
      rfl
    rw [this] at h3
    simp at h3
  have htot : ((stripL s.data).filter (fun c => !(c = ' '))).length ≠ 0 := by
    intro h0
    unfold devCount totalNonSpace at hratio
    rw [h0] at hratio
    omega
  unfold detectWords at h3
  unfold detectHits detectWords at hhits
  simp only [LanguageDetector.detect]
  rw [if_neg hne, if_neg htot, if_neg ?hdev]
  case hdev =>
    unfold devCount totalNonSpace at hratio
    omega
  rw [if_pos h3, if_pos hhits]

/-- Witness for claim C4 amended at the spec scenario input. -/
theorem claim_C4_amended_witness :
    LanguageDetector.detect "timro naam k ho?" = "nepglish" :=
  claim_C4_amended "timro naam k ho?" (by decide) (by decide) (by decide)

/-! ## Claim C2: the FAQ threshold contract -/

/-- The best score reaches t exactly when the starting score does or some
entry does. -/
theorem foldBest_fst_ge (t : ℚ) :
    ∀ (faq : List FAQScored) (acc : ℚ × Option (List (String × String)) ×
      Option String),
      (t ≤ (faq.foldl searchStep acc).1 ↔ t ≤ acc.1 ∨ ∃ e ∈ faq, t ≤ e.sim) := by
  intro faq
  induction faq with
  | nil => intro acc; simp
  | cons e rest ih =>
    intro acc
    simp only [List.foldl_cons]
    rw [ih (searchStep acc e)]
    unfold searchStep
    constructor
    · rintro (h | ⟨f, hf, hft⟩)
      · split at h
        · exact Or.inr ⟨e, List.mem_cons_self .., h⟩
        · exact Or.inl h
      · exact Or.inr ⟨f, List.mem_cons_of_mem _ hf, hft⟩
    · rintro (h | ⟨f, hf, hft⟩)
      · left
        split
        · rename_i hlt; linarith
        · exact h
      · rcases List.mem_cons.mp hf with he | hf2
        · subst he
          left
          split
          · exact hft
          · rename_i hnlt; linarith [le_of_not_lt hnlt]
        · exact Or.inr ⟨f, hf2, hft⟩

/-- When the best score is positive, a best match has been recorded. -/
theorem foldBest_some :
    ∀ (faq : List FAQScored) (acc : ℚ × Option (List (String × String)) ×
      Option String),
      (0 < acc.1 → acc.2.1.isSome = true) →
      (0 < (faq.foldl searchStep acc).1 →
        (faq.foldl searchStep acc).2.1.isSome = true) := by
  intro faq
  induction faq with
  | nil => intro acc h; exact h
  | cons e rest ih =>
    intro acc h
    simp only [List.foldl_cons]
    refine ih (searchStep acc e) ?_
    unfold searchStep
    split
    · intro _; rfl
    · exact h

/-- Claim C2 counterexample: the claim asserts that FAQHandler.get_answer
returns an answer exactly when the best cosine similarity of the query
against the corpus reaches the threshold parameter.  Cosine similarity is
bounded by 1, so the claim entails a fixed best-similarity value M at most
1 for the fixed query with: answer returned iff M at least the threshold,
for every threshold.  The source ignores the threshold entirely (keyword
matching), and returns the stored answer for the corpus question at every
threshold, including 2, which no M at most 1 reaches. -/
theorem claim_C2_counterexample :
    ¬ ∃ M : ℚ, M ≤ 1 ∧ ∀ t : ℚ,
      ((FAQHandler.get_answer "What is Kancha AI?" "en" t).isSome = true ↔
        M ≥ t) := by
  rintro ⟨M, hM, h⟩
  have h2 : M ≥ 2 := (h 2).mp (by decide)
  linarith

/-- Claim C2 amended: the threshold contract holds for FAQSearcher.search
with a positive threshold: it succeeds and reports found exactly when some
corpus entry scores at least the threshold.  FAQHandler.get_answer in
app.py, in contrast, ignores its threshold parameter entirely: its result
is the same for every threshold value. -/
theorem claim_C2_amended :
    (∀ (faq : List FAQScored) (t : ℚ), 0 < t →
      ∃ h, FAQSearcher.search faq t = some h ∧
        (h.found = true ↔ ∃ e ∈ faq, t ≤ e.sim)) ∧
    (∀ (q lang : String) (t₁ t₂ : ℚ),
      FAQHandler.get_answer q lang t₁ = FAQHandler.get_answer q lang t₂) := by
  constructor
  · intro faq t ht
    cases faq with
    | nil =>
      refine ⟨⟨false, none, 0, none⟩, rfl, ?_⟩
      simp
    | cons e rest =>
      simp only [FAQSearcher.search]
      have hfold := foldBest_fst_ge t (e :: rest)
        ((0 : ℚ), (none : Option (List (String × String))),
          (none : Option String))
      by_cases hth : t ≤ ((e :: rest).foldl searchStep
          ((0 : ℚ), none, none)).1
      · have hpos : 0 < ((e :: rest).foldl searchStep
            ((0 : ℚ), none, none)).1 := lt_of_lt_of_le ht hth
        have hsome := foldBest_some (e :: rest) ((0 : ℚ), none, none)
          (by intro h0; exact absurd h0 (by norm_num)) hpos
        obtain ⟨a, ha⟩ := Option.isSome_iff_exists.mp hsome
        rw [if_pos hth, ha]
        refine ⟨_, rfl, ?_⟩
        simp only [true_iff]
        rcases hfold.mp hth with h0 | hex
        · simp only [] at h0; linarith
        · exact hex
      · rw [if_neg hth]
        refine ⟨_, rfl, ?_⟩
        simp only [Bool.false_eq_true, false_iff]
        intro hex
        exact hth (hfold.mpr (Or.inr hex))
  · intro q lang t₁ t₂
    rfl

/-- Witness for claim C2 amended on a one-entry corpus with similarity 0.8
and threshold 0.7. -/
theorem claim_C2_amended_witness :
    ∃ h, FAQSearcher.search [⟨"q1", [("en", "a1")], 4/5⟩] (7/10) = some h ∧
      (h.found = true ↔
        ∃ e ∈ [(⟨"q1", [("en", "a1")], 4/5⟩ : FAQScored)], (7/10 : ℚ) ≤ e.sim) :=
  claim_C2_amended.1 [⟨"q1", [("en", "a1")], 4/5⟩] (7/10) (by norm_num)

/-! ## Claim C7: retrieval graceful emptiness -/

/-- A transport oracle on which every request fails: any response carried
a non-success status (a network exception satisfies this vacuously). -/
def failingFetch (f : String → FetchResult) : Prop :=
  ∀ s st b, f s = FetchResult.resp st b → st ≠ 200

/-- All five provider transports fail. -/
def Providers.allFetchFail (p : Providers) : Prop :=
  failingFetch p.fetchDDG ∧ failingFetch p.fetchGoogle ∧
  failingFetch p.fetchOK ∧ failingFetch p.fetchEK ∧ failingFetch p.fetchSP

/-- All five extraction oracles raise. -/
def Providers.allParseFail (p : Providers) : Prop :=
  (∀ b n, p.parseDDG b n = Except.error ()) ∧
  (∀ b n, p.parseGoogle b n = Except.error ()) ∧
  (∀ b, p.parseOK b = Except.error ()) ∧
  (∀ b, p.parseEK b = Except.error ()) ∧
  (∀ b, p.parseSP b = Except.error ())

/-- The shared request shape degrades to empty when the fetch outcome is
an exception or a non-success status. -/
theorem fetchParse_empty_of_fetch (fr : FetchResult)
    (parse : String → Except Unit (List SearchResult))
    (h : ∀ st b, fr = FetchResult.resp st b → st ≠ 200) :
    fetchParse fr parse = [] := by
  cases fr with
  | exn => rfl
  | resp st b =>
    simp only [fetchParse]
    rw [if_neg (h st b rfl)]

/-- The shared request shape degrades to empty when extraction raises. -/
theorem fetchParse_empty_of_parse (fr : FetchResult)
    (parse : String → Except Unit (List SearchResult))
    (h : ∀ b, parse b = Except.error ()) :
    fetchParse fr parse = [] := by
  cases fr with
  | exn => rfl
  | resp st b =>
    simp only [fetchParse]
    split
    · rw [h b]
    · rfl

/-- The regional news fallback degrades to empty under either failure
mode per provider. -/
theorem nepal_news_empty (p : Providers) (q : String) (n : ℕ)
    (hok : failingFetch p.fetchOK ∨ ∀ b, p.parseOK b = Except.error ())
    (hek : failingFetch p.fetchEK ∨ ∀ b, p.parseEK b = Except.error ())
    (hsp : failingFetch p.fetchSP ∨ ∀ b, p.parseSP b = Except.error ()) :
    WebSearcher.search_nepal_news p q n = [] := by
  have h1 : WebSearcher.search_onlinekhabar p q = [] := by
    unfold WebSearcher.search_onlinekhabar
    rcases hok with h | h
    · exact fetchParse_empty_of_fetch _ _ (fun st b he => h q st b he)
    · exact fetchParse_empty_of_parse _ _ h
  have h2 : WebSearcher.search_ekantipur p q = [] := by
    unfold WebSearcher.search_ekantipur
    rcases hek with h | h
    · exact fetchParse_empty_of_fetch _ _ (fun st b he => h q st b he)
    · exact fetchParse_empty_of_parse _ _ h
  have h3 : WebSearcher.search_setopati p q = [] := by
    unfold WebSearcher.search_setopati
    rcases hsp with h | h
    · exact fetchParse_empty_of_fetch _ _ (fun st b he => h q st b he)
    · exact fetchParse_empty_of_parse _ _ h
  unfold WebSearcher.search_nepal_news
  rw [h1, h2, h3]
  simp

/-- Claim C7: WebSearcher.search degrades to the empty list when every
provider in the cascade fails, whether through network exceptions or
non-success HTTP statuses (first conjunct) or through extraction failures
on every response (second conjunct); no exception propagates to the
caller (search and every helper are total functions of the oracles in the
model, with every source try/except modelled at the site it guards). -/
theorem claim_C7 (p : Providers) (q : String) (n : ℕ) :
    (Providers.allFetchFail p → WebSearcher.search p q n = []) ∧
    (Providers.allParseFail p → WebSearcher.search p q n = []) := by
  have main : ∀ (hddg : ∀ q2 pol, WebSearcher.duckduckgo_search p q2 n pol = [])
      (hgoogle : WebSearcher.try_google_search p q n = [])
      (hnews : WebSearcher.search_nepal_news p q n = []),
      WebSearcher.search p q n = [] := by
    intro hddg hgoogle hnews
    unfold WebSearcher.search
    split
    · simp only [WebSearcher.search_political_info]
      have hns : ∀ queries : List String,
          queries.findSome? (fun q2 =>
            let rs := WebSearcher.duckduckgo_search p q2 n true
            if rs = [] then none else some rs) = none := by
        intro queries
        rw [List.findSome?_eq_none_iff]
        intro q2 _
        simp only [hddg q2 true]
        rfl
      rw [hns]
      exact hnews
    · simp only [WebSearcher.enhanced_search]
      rw [hddg q false, hgoogle]
      simp
  constructor
  · rintro ⟨hd, hg, hok, hek, hsp⟩
    refine main (fun q2 pol => ?_) ?_ ?_
    · exact fetchParse_empty_of_fetch _ _ (fun st b he => hd _ st b he)
    · exact fetchParse_empty_of_fetch _ _ (fun st b he => hg _ st b he)
    · exact nepal_news_empty p q n (Or.inl hok) (Or.inl hek) (Or.inl hsp)
  · rintro ⟨hd, hg, hok, hek, hsp⟩
    refine main (fun q2 pol => ?_) ?_ ?_
    · exact fetchParse_empty_of_parse _ _ (fun b => hd b n)
    · exact fetchParse_empty_of_parse _ _ (fun b => hg b n)
    · exact nepal_news_empty p q n (Or.inr hok) (Or.inr hek) (Or.inr hsp)

/-- Witness for claim C7: with every provider dead, both a general query
and a political query return the empty list. -/
theorem claim_C7_witness :
    WebSearcher.search deadProviders "hello" 3 = [] ∧
    WebSearcher.search deadProviders "who is the current prime minister" 3 = [] := by
  have hfail : Providers.allFetchFail deadProviders := by
    unfold Providers.allFetchFail failingFetch
    refine ⟨?_, ?_, ?_, ?_, ?_⟩ <;> (intro s st b h; cases h)
  exact ⟨(claim_C7 deadProviders "hello" 3).1 hfail,
    (claim_C7 deadProviders "who is the current prime minister" 3).1 hfail⟩

/-! ## Scanner infrastructure for the sanitizer claims -/

/-- Consuming a literal never lengthens the text. -/
theorem dropLit_length (lit l r : List Char) (h : dropLit lit l = some r) :
    r.length ≤ l.length := by
  unfold dropLit at h
  split at h
  · have h2 : l.drop lit.length = r := by injection h
    rw [← h2]
    simp
  · exact Option.noConfusion h

/-- A successful literal consumption exposes the literal as a head. -/
theorem dropLit_some (lit l r : List Char) (h : dropLit lit l = some r) :
    l = lit ++ r := by
  unfold dropLit at h
  split at h
  · rename_i htake
    have h2 : l.drop lit.length = r := by injection h
    rw [← htake, ← h2]
    exact (List.take_append_drop _ l).symm
  · exact Option.noConfusion h

/-- Fuel irrelevance of the scanner for a shrinking matcher. -/
theorem scanSubF_congr (m : List Char → Option (List Char))
    (repl : List Char) (hm : Shrinks m) :
    ∀ (n₁ n₂ : ℕ) (l : List Char), l.length ≤ n₁ → l.length ≤ n₂ →
      scanSubF m repl n₁ l = scanSubF m repl n₂ l := by
  intro n₁
  induction n₁ with
  | zero =>
    intro n₂ l h1 _
    have : l = [] := List.length_eq_zero.mp (Nat.le_zero.mp h1)
    subst this
    cases n₂ <;> rfl
  | succ k ih =>
    intro n₂ l h1 h2
    cases l with
    | nil => cases n₂ <;> rfl
    | cons c cs =>
      cases n₂ with
      | zero => exact absurd h2 (by simp)
      | succ j =>
        have ha : cs.length ≤ k := by simpa using h1
        have hb : cs.length ≤ j := by simpa using h2
        cases hmc : m (c :: cs) with
        | some rest =>
          have hlt := hm (c :: cs) rest hmc
          have hcs : rest.length ≤ cs.length := by
            simp only [List.length_cons] at hlt
            omega
          simp only [scanSubF, hmc]
          congr 1
          exact ih j rest (le_trans hcs ha) (le_trans hcs hb)
        | none =>
          simp only [scanSubF, hmc]
          congr 1
          exact ih j cs ha hb

/-- Scanner equation: a match at the head emits the replacement and
continues after the matched piece. -/
theorem scanSub_cons_some (m : List Char → Option (List Char))
    (repl : List Char) (hm : Shrinks m) (c : Char) (cs rest : List Char)
    (h : m (c :: cs) = some rest) :
    scanSub m repl (c :: cs) = repl ++ scanSub m repl rest := by
  unfold scanSub
  simp only [List.length_cons, scanSubF, h]
  congr 1
  have hlt := hm (c :: cs) rest h
  simp only [List.length_cons] at hlt
  exact scanSubF_congr m repl hm _ _ rest (by omega) le_rfl

/-- Scanner equation: no match at the head keeps the character and moves
on by one. -/
theorem scanSub_cons_none (m : List Char → Option (List Char))
    (repl : List Char) (c : Char) (cs : List Char)
    (h : m (c :: cs) = none) :
    scanSub m repl (c :: cs) = c :: scanSub m repl cs := by
  unfold scanSub
  simp only [List.length_cons, scanSubF, h]

/-- Characterisation of the scheme recogniser. -/
theorem schemeAt_some (l r : List Char) (h : schemeAt l = some r) :
    l = httpL ++ r ∨ l = httpsL ++ r := by
  unfold schemeAt at h
  split at h
  · rename_i h7
    have hr : l.drop 7 = r := by injection h
    left
    rw [← h7, ← hr]
    exact (List.take_append_drop 7 l).symm
  · split at h
    · rename_i h8
      have hr : l.drop 8 = r := by injection h
      right
      rw [← h8, ← hr]
      exact (List.take_append_drop 8 l).symm
    · exact Option.noConfusion h

/-- The scheme recogniser accepts an http scheme at the head. -/
theorem schemeAt_http (r : List Char) : schemeAt (httpL ++ r) = some r := by
  unfold schemeAt
  rw [if_pos]
  · rw [show (7 : ℕ) = httpL.length from rfl, List.drop_left]
  · rw [show (7 : ℕ) = httpL.length from rfl, List.take_left]

/-- The scheme recogniser accepts an https scheme at the head. -/
theorem schemeAt_https (r : List Char) : schemeAt (httpsL ++ r) = some r := by
  have hneq : ¬ (List.take 7 (httpsL ++ r) = httpL) := by
    rw [List.take_append_eq_append_take,
      show (7 - httpsL.length) = 0 from rfl, List.take_zero,
      List.append_nil]
    decide
  unfold schemeAt
  rw [if_neg hneq, if_pos]
  · rw [show (8 : ℕ) = httpsL.length from rfl, List.drop_left]
  · rw [show (8 : ℕ) = httpsL.length from rfl, List.take_left]

/-- Consuming a scheme shortens the text by at least seven characters. -/
theorem schemeAt_length (l r : List Char) (h : schemeAt l = some r) :
    r.length + 7 ≤ l.length := by
  rcases schemeAt_some l r h with h2 | h2 <;> subst h2 <;> simp [httpL, httpsL]

/-- The catch-all URL matcher shrinks. -/
theorem mUrl_shrinks : Shrinks mUrl := by
  intro l r h
  unfold mUrl at h
  cases hs : schemeAt l with
  | none => rw [hs] at h; exact Option.noConfusion h
  | some r1 =>
    rw [hs, Option.some_bind] at h
    split at h
    · exact Option.noConfusion h
    · have hr : r1.dropWhile (fun c => !isWS c) = r := by injection h
      have h1 := schemeAt_length l r1 hs
      have h2 : (r1.dropWhile (fun c => !isWS c)).length ≤ r1.length :=
        (List.dropWhile_suffix _).length_le
      rw [hr] at h2
      omega

/-- The closing-bracket search consumes at least the bracket. -/
theorem findClose_length :
    ∀ (l r : List Char), findClose l = some r → r.length < l.length := by
  intro l
  induction l with
  | nil => intro r h; exact Option.noConfusion h
  | cons c cs ih =>
    intro r h
    unfold findClose at h
    split at h
    · have h2 : cs = r := by injection h
      rw [← h2]
      simp
    · split at h
      · exact Option.noConfusion h
      · have := ih r h
        simp only [List.length_cons]
        omega

/-- The metadata matcher shrinks for a non-empty opening literal. -/
theorem mTag_shrinks (tag : List Char) (htag : tag ≠ []) :
    Shrinks (mTag tag) := by
  intro l r h
  unfold mTag at h
  cases hd : dropLit tag l with
  | none => rw [hd] at h; exact Option.noConfusion h
  | some r1 =>
    rw [hd, Option.some_bind] at h
    have h1 := findClose_length r1 r h
    have h2 := dropLit_some tag l r1 hd
    have h3 : 0 < tag.length := List.length_pos.mpr htag
    have h4 : l.length = tag.length + r1.length := by
      rw [h2]
      simp
    omega

/-- The youtube watch matcher shrinks. -/
theorem mYtWatch_shrinks : Shrinks mYtWatch := by
  intro l r h
  unfold mYtWatch at h
  cases hs : schemeAt l with
  | none => rw [hs] at h; exact Option.noConfusion h
  | some r1 =>
    rw [hs, Option.some_bind] at h
    have h1 := schemeAt_length l r1 hs
    cases hd : (match dropLit "www.youtube.com/watch?v=".data r1 with
        | some r2 => some r2
        | none => dropLit "youtube.com/watch?v=".data r1) with
    | none => rw [hd] at h; exact Option.noConfusion h
    | some r2 =>
      rw [hd, Option.some_bind] at h
      split at h
      · exact Option.noConfusion h
      · have hr : r2.dropWhile isWordDash = r := by injection h
        have h2 : (r2.dropWhile isWordDash).length ≤ r2.length :=
          (List.dropWhile_suffix _).length_le
        rw [hr] at h2
        have h3 : r2.length ≤ r1.length := by
          cases hw : dropLit "www.youtube.com/watch?v=".data r1 with
          | some rw2 =>
            rw [hw] at hd
            have : rw2 = r2 := by injection hd
            rw [← this]
            exact dropLit_length _ _ _ hw
          | none =>
            rw [hw] at hd
            exact dropLit_length _ _ _ hd
        omega

/-- The youtu.be matcher shrinks. -/
theorem mYtBe_shrinks : Shrinks mYtBe := by
  intro l r h
  unfold mYtBe at h
  cases hs : schemeAt l with
  | none => rw [hs] at h; exact Option.noConfusion h
  | some r1 =>
    rw [hs, Option.some_bind] at h
    have h1 := schemeAt_length l r1 hs
    cases hd : dropLit "youtu.be/".data r1 with
    | none => rw [hd] at h; exact Option.noConfusion h
    | some r2 =>
      rw [hd, Option.some_bind] at h
      split at h
      · exact Option.noConfusion h
      · have hr : r2.dropWhile isWordDash = r := by injection h
        have h2 : (r2.dropWhile isWordDash).length ≤ r2.length :=
          (List.dropWhile_suffix _).length_le
        rw [hr] at h2
        have h3 := dropLit_length _ _ _ hd
        omega

/-! ## Occurrence machinery for well-formed URLs -/

/-- Split a prefix of an appended list. -/
theorem pfx_append_cases :
    ∀ (a b t : List Char), t <+: (a ++ b) →
      t <+: a ∨ ∃ r, t = a ++ r ∧ r <+: b := by
  intro a
  induction a with
  | nil => intro b t h; exact Or.inr ⟨t, rfl, by simpa using h⟩
  | cons x a2 ih =>
    intro b t h
    cases t with
    | nil => exact Or.inl List.nil_prefix
    | cons y t2 =>
      obtain ⟨s, hs⟩ := h
      rw [List.cons_append, List.cons_append] at hs
      injection hs with h1 h2
      subst h1
      rcases ih b t2 ⟨s, h2⟩ with h3 | ⟨r, hr, hrb⟩
      · obtain ⟨s2, hs2⟩ := h3
        exact Or.inl ⟨s2, by rw [List.cons_append, hs2]⟩
      · exact Or.inr ⟨r, by rw [hr, List.cons_append], hrb⟩

/-- Split an occurrence inside an appended list: it lies in the left part,
in the right part, or straddles the boundary with a non-empty left piece
that is a suffix of the left part. -/
theorem infix_append_cases :
    ∀ (a b t : List Char), t <:+: (a ++ b) →
      t <:+: a ∨ t <:+: b ∨
        ∃ t₁ t₂, t = t₁ ++ t₂ ∧ t₁ ≠ [] ∧ t₁ <:+ a ∧ t₂ <+: b := by
  intro a
  induction a with
  | nil => intro b t h; exact Or.inr (Or.inl (by simpa using h))
  | cons x a2 ih =>
    intro b t h
    rw [List.cons_append] at h
    rcases List.infix_cons_iff.mp h with hpre | hinf
    · rcases pfx_append_cases (x :: a2) b t (by exact hpre)
        with h2 | ⟨r, hr, hrb⟩
      · exact Or.inl h2.isInfix
      · cases hr2 : r with
        | nil =>
          left
          rw [hr, hr2, List.append_nil]
        | cons r0 rs =>
          right; right
          exact ⟨x :: a2, r, hr, by simp, List.suffix_rfl, hrb⟩
    · rcases ih b t hinf with h2 | h2 | ⟨t₁, t₂, ht, hne, hs, hp⟩
      · exact Or.inl (h2.trans (List.suffix_cons x a2).isInfix)
      · exact Or.inr (Or.inl h2)
      · exact Or.inr (Or.inr
          ⟨t₁, t₂, ht, hne, hs.trans (List.suffix_cons x a2), hp⟩)

/-- A URL occurrence anywhere in the right part survives prepending. -/
theorem containsUrlB_append_right (t u : List Char)
    (h : containsUrlB u = true) : containsUrlB (t ++ u) = true := by
  induction t with
  | nil => simpa
  | cons c cs ih =>
    rw [List.cons_append]
    show (startsWithUrl (c :: (cs ++ u)) || containsUrlB (cs ++ u)) = true
    rw [ih]
    simp

/-- A text whose head starts a URL contains a URL. -/
theorem containsUrlB_head (u : List Char) (h : startsWithUrl u = true) :
    containsUrlB u = true := by
  cases u with
  | nil => exact absurd h (by decide)
  | cons x xs =>
    show (startsWithUrl (x :: xs) || containsUrlB xs) = true
    rw [h]
    simp

/-- A scheme followed by a non-whitespace character starts a URL. -/
theorem startsWithUrl_scheme (sch : List Char)
    (hsch : sch = httpL ∨ sch = httpsL) (c : Char) (s : List Char)
    (hc : isWS c = false) : startsWithUrl (sch ++ (c :: s)) = true := by
  unfold startsWithUrl
  rcases hsch with rfl | rfl
  · rw [schemeAt_http]
    simp [hc]
  · rw [schemeAt_https]
    simp [hc]

/-- Occurrence characterisation: a text contains a well-formed URL exactly
when a scheme followed by one non-whitespace character occurs contiguously
somewhere in it. -/
theorem containsUrl_iff (m : List Char) :
    containsUrlB m = true ↔
      ∃ sch c, (sch = httpL ∨ sch = httpsL) ∧ isWS c = false ∧
        (sch ++ [c]) <:+: m := by
  constructor
  · induction m with
    | nil => intro h; exact absurd h (by decide)
    | cons x xs ih =>
      intro h
      rcases Bool.or_eq_true_iff.mp
          (show (startsWithUrl (x :: xs) || containsUrlB xs) = true from h)
        with h1 | h1
      · unfold startsWithUrl at h1
        cases hsc : schemeAt (x :: xs) with
        | none => rw [hsc] at h1; exact absurd h1 (by simp)
        | some r =>
          rw [hsc] at h1
          cases r with
          | nil => simp at h1
          | cons c rest =>
            have hc : isWS c = false := by simpa using h1
            rcases schemeAt_some _ _ hsc with he | he
            · exact ⟨httpL, c, Or.inl rfl, hc,
                ⟨[], rest, by rw [he]; simp⟩⟩
            · exact ⟨httpsL, c, Or.inr rfl, hc,
                ⟨[], rest, by rw [he]; simp⟩⟩
      · obtain ⟨sch, c, ha, hb, hinf⟩ := ih h1
        exact ⟨sch, c, ha, hb, hinf.trans (List.suffix_cons x xs).isInfix⟩
  · rintro ⟨sch, c, hsch, hc, p, s, hps⟩
    rw [← hps]
    have hshape : p ++ (sch ++ [c]) ++ s = p ++ (sch ++ (c :: s)) := by simp
    rw [hshape]
    exact containsUrlB_append_right p _
      (containsUrlB_head _ (startsWithUrl_scheme sch hsch c s hc))

/-- URL occurrence is monotone under contiguous containment. -/
theorem containsUrl_mono (m M : List Char) (h : containsUrlB m = true)
    (hinf : m <:+: M) : containsUrlB M = true := by
  obtain ⟨sch, c, h1, h2, h3⟩ := (containsUrl_iff m).mp h
  exact (containsUrl_iff M).mpr ⟨sch, c, h1, h2, h3.trans hinf⟩

/-! ## The catch-all URL pass leaves no well-formed URL behind -/

/-- Cons normal form of the http literal. -/
theorem httpL_cons : httpL = 'h' :: "ttp://".data := by decide

/-- Cons normal form of the https literal. -/
theorem httpsL_cons : httpsL = 'h' :: "ttps://".data := by decide

/-- Cons normal form of the URL replacement string. -/
theorem replUrl_cons :
    replUrl = '🔗' :: " [Link removed - Search instead]".data := by decide

/-- How a prefix of the output of the URL pass relates to its input: the
prefix either survives from the input with the next character intact, or
the next character is the head of the URL replacement string, in which
case a URL match begins right after the prefix in the input.  The
link-emoji head of the replacement string cannot occur in the prefix. -/
theorem sUrl_pfx :
    ∀ (n : ℕ) (cs : List Char), cs.length ≤ n →
      ∀ (w : List Char) (x : Char) (rest2 : List Char),
        scanSub mUrl replUrl cs = w ++ x :: rest2 → '🔗' ∉ w →
        (∃ tail, cs = w ++ x :: tail) ∨
        (x = '🔗' ∧ ∃ tail, cs = w ++ tail ∧ (mUrl tail).isSome = true) := by
  intro n
  induction n with
  | zero =>
    intro cs hn w x rest2 h _
    have : cs = [] := List.length_eq_zero.mp (Nat.le_zero.mp hn)
    subst this
    exact absurd h (by simp [scanSub, scanSubF])
  | succ k ih =>
    intro cs hn w x rest2 h hw
    cases cs with
    | nil => exact absurd h (by simp [scanSub, scanSubF])
    | cons c cs2 =>
      cases hm : mUrl (c :: cs2) with
      | some r =>
        rw [scanSub_cons_some mUrl replUrl mUrl_shrinks c cs2 r hm,
          replUrl_cons] at h
        cases w with
        | nil =>
          right
          rw [List.cons_append] at h
          injection h with h1 _
          exact ⟨h1.symm, c :: cs2, rfl, by rw [hm]; rfl⟩
        | cons w0 w2 =>
          rw [List.cons_append, List.cons_append] at h
          injection h with h1 _
          exact absurd (h1 ▸ List.mem_cons_self w0 w2) hw
      | none =>
        rw [scanSub_cons_none mUrl replUrl c cs2 hm] at h
        cases w with
        | nil =>
          left
          injection h with h1 h2
          exact ⟨cs2, by rw [List.nil_append, ← h1]⟩
        | cons w0 w2 =>
          rw [List.cons_append] at h
          injection h with h1 h2
          have hlen : cs2.length ≤ k := by simpa using hn
          have hw2 : '🔗' ∉ w2 := fun hx => hw (List.mem_cons_of_mem w0 hx)
          rcases ih cs2 hlen w2 x rest2 h2 hw2 with
            ⟨tail, ht⟩ | ⟨hx, tail, ht, hs⟩
          · exact Or.inl ⟨tail, by rw [List.cons_append, ← h1, ht]⟩
          · exact Or.inr ⟨hx, tail, by rw [List.cons_append, ← h1, ht], hs⟩

/-- If the matched text begins with an http or https scheme followed by a
non-whitespace character, the catch-all URL matcher fires. -/
theorem mUrl_fires (sch : List Char) (hsch : sch = httpL ∨ sch = httpsL)
    (x : Char) (hx : isWS x = false) (tail : List Char) :
    (mUrl (sch ++ (x :: tail))).isSome = true := by
  unfold mUrl
  have hs : schemeAt (sch ++ (x :: tail)) = some (x :: tail) := by
    rcases hsch with rfl | rfl
    · exact schemeAt_http _
    · exact schemeAt_https _
  rw [hs, Option.some_bind]
  rw [List.takeWhile_cons_of_pos (by simp [hx])]
  simp

/-- A scheme followed by a non-whitespace character at the head of the
output of the URL pass contradicts the matcher having failed there. -/
theorem mUrl_none_contra (k : ℕ) (c : Char) (cs : List Char)
    (hlen : cs.length ≤ k) (hm : mUrl (c :: cs) = none)
    (x : Char) (xs : List Char) (hx : isWS x = false)
    (sch stail : List Char) (hsch : sch = httpL ∨ sch = httpsL)
    (hcons : sch = 'h' :: stail) (hnot : '🔗' ∉ stail)
    (he : c :: scanSub mUrl replUrl cs = sch ++ (x :: xs)) : False := by
  rw [hcons, List.cons_append] at he
  injection he with h1 h2
  rcases sUrl_pfx k cs hlen stail x xs h2 hnot with
    ⟨tail, ht⟩ | ⟨hxe, tail, ht, hs⟩
  · have hfire : (mUrl (c :: cs)).isSome = true := by
      have hcc : c :: cs = sch ++ (x :: tail) := by
        rw [hcons, List.cons_append, h1, ht]
      rw [hcc]
      exact mUrl_fires sch hsch x hx tail
    rw [hm] at hfire
    exact absurd hfire (by simp)
  · obtain ⟨rt, hrt⟩ : ∃ rt, schemeAt tail = some rt := by
      cases hst : schemeAt tail with
      | none =>
        unfold mUrl at hs
        rw [hst, Option.none_bind] at hs
        exact absurd hs (by simp)
      | some rt => exact ⟨rt, rfl⟩
    have hfire : (mUrl (c :: cs)).isSome = true := by
      have hcc : c :: cs = sch ++ tail := by
        rw [hcons, List.cons_append, h1, ht]
      rw [hcc]
      rcases schemeAt_some _ _ hrt with he2 | he2
      · rw [he2, httpL_cons, List.cons_append]
        exact mUrl_fires sch hsch 'h' (by decide) _
      · rw [he2, httpsL_cons, List.cons_append]
        exact mUrl_fires sch hsch 'h' (by decide) _
    rw [hm] at hfire
    exact absurd hfire (by simp)

/-- The output of the catch-all URL pass contains no well-formed URL. -/
theorem scanSub_url_noUrl_aux :
    ∀ (n : ℕ) (l : List Char), l.length ≤ n →
      containsUrlB (scanSub mUrl replUrl l) = false := by
  intro n
  induction n with
  | zero =>
    intro l hn
    have : l = [] := List.length_eq_zero.mp (Nat.le_zero.mp hn)
    subst this
    rfl
  | succ k ih =>
    intro l hn
    cases l with
    | nil => rfl
    | cons c cs =>
      have hlencs : cs.length ≤ k := by simpa using hn
      cases hm : mUrl (c :: cs) with
      | some r =>
        rw [scanSub_cons_some mUrl replUrl mUrl_shrinks c cs r hm]
        have hr : r.length ≤ k := by
          have := mUrl_shrinks (c :: cs) r hm
          simp only [List.length_cons] at this
          omega
        by_contra hcon
        rw [Bool.not_eq_false] at hcon
        obtain ⟨sch, ch, hsch, hch, hinf⟩ := (containsUrl_iff _).mp hcon
        rcases infix_append_cases replUrl _ _ hinf with
          hin | hin | ⟨t₁, t₂, hsplit, hne, hsfx, hpfx⟩
        · exact absurd ((containsUrl_iff replUrl).mpr ⟨sch, ch, hsch, hch, hin⟩)
            (by decide)
        · exact absurd ((containsUrl_iff _).mpr ⟨sch, ch, hsch, hch, hin⟩)
            (by rw [ih r hr]; simp)
        · have hpt : t₁ <+: sch ++ [ch] := ⟨t₂, hsplit.symm⟩
          by_cases hcase : t₁.length ≤ sch.length
          · have hts : t₁ <+: sch :=
              List.prefix_of_prefix_length_le hpt
                (List.prefix_append sch [ch]) hcase
            obtain ⟨c0, t12, rfl⟩ : ∃ c0 t12, t₁ = c0 :: t12 := by
              cases t₁ with
              | nil => exact absurd rfl hne
              | cons a b => exact ⟨a, b, rfl⟩
            have hc0 : c0 = 'h' := by
              obtain ⟨s2, hs2⟩ := hts
              rcases hsch with rfl | rfl
              · rw [httpL_cons, List.cons_append] at hs2
                injection hs2
              · rw [httpsL_cons, List.cons_append] at hs2
                injection hs2
            have hlt9 : (c0 :: t12).length ≤ 9 := by
              have h2 : sch.length ≤ 8 := by
                rcases hsch with rfl | rfl <;> decide
              have h3 := hpt.length_le
              simp only [List.length_append, List.length_singleton] at h3
              omega
            obtain ⟨pp, hpp⟩ := hsfx
            set N := replUrl.length - 9 with hN
            have hppl : N ≤ pp.length := by
              have := congrArg List.length hpp
              simp only [List.length_append, List.length_cons] at this
              simp only [List.length_cons] at hlt9
              omega
            have hdrop : replUrl.drop N = pp.drop N ++ (c0 :: t12) := by
              conv_lhs => rw [← hpp]
              rw [List.drop_append_eq_append_drop,
                show N - pp.length = 0 from by omega, List.drop_zero]
            have hmem : 'h' ∈ replUrl.drop N := by
              rw [hdrop, ← hc0]
              exact List.mem_append_right _ (List.mem_cons_self c0 t12)
            rw [hN] at hmem
            exact absurd hmem (by decide)
          · have ht1 : t₁ = sch ++ [ch] := by
              refine hpt.eq_of_length ?_
              have h1 := hpt.length_le
              simp only [List.length_append, List.length_singleton] at h1 ⊢
              omega
            rw [ht1] at hsfx
            exact absurd
              ((containsUrl_iff replUrl).mpr
                ⟨sch, ch, hsch, hch, hsfx.isInfix⟩)
              (by decide)
      | none =>
        rw [scanSub_cons_none mUrl replUrl c cs hm]
        show (startsWithUrl (c :: scanSub mUrl replUrl cs) ||
          containsUrlB (scanSub mUrl replUrl cs)) = false
        rw [ih cs hlencs, Bool.or_false]
        by_contra hcon
        rw [Bool.not_eq_false] at hcon
        unfold startsWithUrl at hcon
        cases hsc : schemeAt (c :: scanSub mUrl replUrl cs) with
        | none => rw [hsc] at hcon; exact absurd hcon (by simp)
        | some rr =>
          rw [hsc] at hcon
          cases rr with
          | nil => simp at hcon
          | cons x xs =>
            have hx : isWS x = false := by simpa using hcon
            rcases schemeAt_some _ _ hsc with he | he
            · exact mUrl_none_contra k c cs hlencs hm
                x xs hx httpL "ttp://".data (Or.inl rfl) httpL_cons
                (by decide) he
            · exact mUrl_none_contra k c cs hlencs hm
                x xs hx httpsL "ttps://".data (Or.inr rfl) httpsL_cons
                (by decide) he

/-- The output of the catch-all URL pass contains no well-formed URL, for
every input. -/
theorem scanSub_url_noUrl (l : List Char) :
    containsUrlB (scanSub mUrl replUrl l) = false :=
  scanSub_url_noUrl_aux l.length l le_rfl

/-! ## Newline collapsing and stripping preserve URL absence -/

/-- Fuel irrelevance of the newline collapser. -/
theorem collapseNLF_congr :
    ∀ (n₁ n₂ : ℕ) (l : List Char), l.length ≤ n₁ → l.length ≤ n₂ →
      collapseNLF n₁ l = collapseNLF n₂ l := by
  intro n₁
  induction n₁ with
  | zero =>
    intro n₂ l h1 _
    have : l = [] := List.length_eq_zero.mp (Nat.le_zero.mp h1)
    subst this
    cases n₂ <;> rfl
  | succ k ih =>
    intro n₂ l h1 h2
    cases l with
    | nil => cases n₂ <;> rfl
    | cons c cs =>
      cases n₂ with
      | zero => exact absurd h2 (by simp)
      | succ j =>
        have ha : cs.length ≤ k := by simpa using h1
        have hb : cs.length ≤ j := by simpa using h2
        simp only [collapseNLF]
        split
        · rename_i hc
          congr 1
          have hd : ((c :: cs).dropWhile (fun x => x = '\n')).length ≤
              cs.length := by
            rw [List.dropWhile_cons_of_pos (by simp [hc])]
            exact (List.dropWhile_suffix _).length_le
          exact ih j _ (le_trans hd ha) (le_trans hd hb)
        · congr 1
          exact ih j cs ha hb

/-- Collapser equation at a newline head. -/
theorem collapseNL_cons_nl (cs : List Char) :
    collapseNL ('\n' :: cs) =
      (if 3 ≤ (('\n' :: cs).takeWhile (fun x => x = '\n')).length then
        ['\n', '\n']
       else ('\n' :: cs).takeWhile (fun x => x = '\n')) ++
      collapseNL (('\n' :: cs).dropWhile (fun x => x = '\n')) := by
  have hd : (('\n' :: cs).dropWhile (fun x => x = '\n')).length ≤
      cs.length := by
    rw [List.dropWhile_cons_of_pos (by simp)]
    exact (List.dropWhile_suffix _).length_le
  unfold collapseNL
  simp only [List.length_cons, collapseNLF, if_true]
  congr 1
  exact collapseNLF_congr _ _ _ hd le_rfl

/-- Collapser equation at an ordinary head. -/
theorem collapseNL_cons (c : Char) (cs : List Char) (h : ¬(c = '\n')) :
    collapseNL (c :: cs) = c :: collapseNL cs := by
  unfold collapseNL
  simp only [List.length_cons, collapseNLF, h, if_false]

/-- A newline-free occurrence inside an all-newline padding followed by a
remainder lies inside the remainder. -/
theorem noNL_infix_pad :
    ∀ (pad t X : List Char), (∀ p ∈ pad, p = '\n') → '\n' ∉ t →
      t <:+: pad ++ X → t <:+: X := by
  intro pad
  induction pad with
  | nil => intro t X _ _ h; simpa using h
  | cons p pr ih =>
    intro t X hpad ht h
    rw [List.cons_append] at h
    rcases List.infix_cons_iff.mp h with hpre | hinf
    · cases t with
      | nil => exact List.nil_infix
      | cons d dt =>
        obtain ⟨s, hs⟩ := hpre
        rw [List.cons_append] at hs
        injection hs with h1 _
        rw [h1, hpad p (List.mem_cons_self p pr)] at ht
        exact absurd (List.mem_cons_self '\n' dt) ht
    · exact ih t X (fun q hq => hpad q (List.mem_cons_of_mem p hq)) ht hinf

/-- A newline-free prefix of the collapsed text is a prefix of the
original text. -/
theorem noNL_pfx_collapse :
    ∀ (n : ℕ) (l t : List Char), l.length ≤ n → '\n' ∉ t →
      t <+: collapseNL l → t <+: l := by
  intro n
  induction n with
  | zero =>
    intro l t h1 _ h
    have : l = [] := List.length_eq_zero.mp (Nat.le_zero.mp h1)
    subst this
    exact h
  | succ k ih =>
    intro l t hn ht h
    cases t with
    | nil => exact List.nil_prefix
    | cons d dt =>
      cases l with
      | nil => exact h
      | cons c cs =>
        have ha : cs.length ≤ k := by simpa using hn
        by_cases hc : c = '\n'
        · subst hc
          rw [collapseNL_cons_nl cs] at h
          obtain ⟨s, hs⟩ := h
          have hhead : ((if 3 ≤ (('\n' :: cs).takeWhile
                (fun x => x = '\n')).length then ['\n', '\n']
              else ('\n' :: cs).takeWhile (fun x => x = '\n')) ++
              collapseNL (('\n' :: cs).dropWhile (fun x => x = '\n'))
              ).head? = some '\n' := by
            split
            · rfl
            · rw [List.takeWhile_cons_of_pos (by simp)]
              rfl
          have hd2 : some d = some '\n' := by
            calc some d = ((d :: dt) ++ s).head? := rfl
              _ = _ := by rw [hs]
              _ = some '\n' := hhead
          injection hd2 with h1
          rw [h1] at ht
          exact absurd (List.mem_cons_self '\n' dt) ht
        · rw [collapseNL_cons c cs hc] at h
          obtain ⟨s, hs⟩ := h
          rw [List.cons_append] at hs
          injection hs with h1 h2
          have hdt : dt <+: collapseNL cs := ⟨s, h2⟩
          have := ih cs dt ha (fun hx => ht (List.mem_cons_of_mem d hx)) hdt
          obtain ⟨s2, hs2⟩ := this
          exact ⟨s2, by rw [List.cons_append, h1, hs2]⟩

/-- A newline-free occurrence in the collapsed text occurs in the
original text. -/
theorem noNL_infix_collapse :
    ∀ (n : ℕ) (l t : List Char), l.length ≤ n → '\n' ∉ t →
      t <:+: collapseNL l → t <:+: l := by
  intro n
  induction n with
  | zero =>
    intro l t h1 _ h
    have : l = [] := List.length_eq_zero.mp (Nat.le_zero.mp h1)
    subst this
    exact h
  | succ k ih =>
    intro l t hn ht h
    cases l with
    | nil => exact h
    | cons c cs =>
      have ha : cs.length ≤ k := by simpa using hn
      by_cases hc : c = '\n'
      · subst hc
        rw [collapseNL_cons_nl cs] at h
        have hpad : ∀ p ∈ (if 3 ≤ (('\n' :: cs).takeWhile
            (fun x => x = '\n')).length then ['\n', '\n']
            else ('\n' :: cs).takeWhile (fun x => x = '\n')), p = '\n' := by
          intro p hp
          split at hp
          · rcases List.mem_cons.mp hp with rfl | hp2
            · rfl
            · simpa using hp2
          · have := List.mem_takeWhile_imp hp
            simpa using this
        have h2 := noNL_infix_pad _ t _ hpad ht h
        have hrlen : (('\n' :: cs).dropWhile (fun x => x = '\n')).length ≤
            k := by
          rw [List.dropWhile_cons_of_pos (by simp)]
          exact le_trans (List.dropWhile_suffix _).length_le ha
        have h3 := ih _ t hrlen ht h2
        exact h3.trans (List.dropWhile_suffix _).isInfix
      · rw [collapseNL_cons c cs hc] at h
        rcases List.infix_cons_iff.mp h with hpre | hinf
        · cases t with
          | nil => exact List.nil_infix
          | cons d dt =>
            obtain ⟨s, hs⟩ := hpre
            rw [List.cons_append] at hs
            injection hs with h1 h2
            have hdt : dt <+: collapseNL cs := ⟨s, h2⟩
            have := noNL_pfx_collapse k cs dt ha
              (fun hx => ht (List.mem_cons_of_mem d hx)) hdt
            obtain ⟨s2, hs2⟩ := this
            exact List.IsPrefix.isInfix
              ⟨s2, by rw [List.cons_append, h1, hs2]⟩
        · exact (ih cs t ha ht hinf).trans (List.suffix_cons c cs).isInfix

/-- The sanitizer output never contains a well-formed URL: the catch-all
URL pass removes every occurrence and the later passes (newline
collapsing and stripping) cannot create one. -/
theorem cleanL_noUrl (l : List Char) : containsUrlB (cleanL l) = false := by
  unfold cleanL
  by_contra hcon
  rw [Bool.not_eq_false] at hcon
  obtain ⟨sch, ch, hsch, hch, hinf⟩ := (containsUrl_iff _).mp hcon
  have hnoNL : '\n' ∉ sch ++ [ch] := by
    intro hmem
    rcases List.mem_append.mp hmem with hmem | hmem
    · rcases hsch with rfl | rfl <;> revert hmem <;> decide
    · have : '\n' = ch := by simpa using hmem
      rw [← this] at hch
      exact absurd hch (by decide)
  have h1 := hinf.trans (stripL_isInfix _)
  have h2 := noNL_infix_collapse _ _ _ le_rfl hnoNL h1
  have h3 := (containsUrl_iff _).mpr ⟨sch, ch, hsch, hch, h2⟩
  rw [scanSub_url_noUrl] at h3
  exact absurd h3 (by simp)

/-! ## Claim C3: sanitizer URL elimination -/

/-- Claim C3: for every input containing a well-formed HTTP or HTTPS URL
(the scheme in the lower case the source patterns match, followed by at
least one non-whitespace character), the output of
ResponseProcessor.clean contains no well-formed URL.  (The output is in
fact URL-free for every input.) -/
theorem claim_C3 (s : String) (h : containsUrlB s.data = true) :
    containsUrlB (ResponseProcessor.clean s).data = false :=
  cleanL_noUrl s.data

/-- Witness for claim C3 on a concrete input holding a URL. -/
theorem claim_C3_witness :
    containsUrlB "go http://x.com now".data = true ∧
    containsUrlB (ResponseProcessor.clean "go http://x.com now").data = false :=
  ⟨by decide, claim_C3 "go http://x.com now" (by decide)⟩

/-! ## Claim C8: a FAQ hit is terminal -/

/-- Claim C8: when the input passes validation, is not a bare summarize
command, and the FAQ lookup on the effective query returns an answer,
request processing terminates with that answer: the rate governor log is
untouched, the external model is not invoked, and exactly the user message
and the quick-answer reply are appended to the transcript. -/
theorem claim_C8 (model : String → String → Except String String) (now : ℚ)
    (st : ChatState) (input q a : String)
    (hval : (MessageValidator.validate input).1 = true)
    (hsum : summarizeStep (MessageValidator.sanitize input) =
      SummarizeStep.query q)
    (hfaq : FAQHandler.get_answer q
      (languageFor (LanguageDetector.detect q)) (13/20) = some a) :
    ∃ st2 : ChatState,
      process_user_message model now st input = (st2, none) ∧
      st2.rlCalls = st.rlCalls ∧
      st2.modelCalls = st.modelCalls ∧
      st2.messages = st.messages ++
        [("user", MessageValidator.sanitize input),
         ("assistant",
          (if LanguageDetector.detect q = "devanagari" then
            "**📌 तत्काल उत्तर:**\n\n"
           else "**📌 Quick Answer:**\n\n") ++ a)] := by
  simp only [process_user_message, hval, Bool.true_eq_false, if_false,
    hsum, hfaq]
  exact ⟨_, rfl, rfl, rfl, by simp⟩

/-- Witness for claim C8: the verbatim corpus question of the spec
scenario, processed from an empty session, leaves the governor log empty,
makes no model call, and appends the stored english quick answer. -/
theorem claim_C8_witness :
    ∃ st2 : ChatState,
      process_user_message (fun _ _ => Except.error "no model") 0
        ⟨[], [], [], 0⟩ "What is Kancha AI?" = (st2, none) ∧
      st2.rlCalls = [] ∧
      st2.modelCalls = 0 ∧
      st2.messages = [] ++
        [("user", MessageValidator.sanitize "What is Kancha AI?"),
         ("assistant",
          (if LanguageDetector.detect "What is Kancha AI?" = "devanagari" then
            "**📌 तत्काल उत्तर:**\n\n"
           else "**📌 Quick Answer:**\n\n") ++
          "Kancha AI is a multilingual chatbot assistant specifically designed for Nepali users. It supports English, Nepali (Devanagari), and Nepglish (Romanized Nepali).")] :=
  claim_C8 (fun _ _ => Except.error "no model") 0 ⟨[], [], [], 0⟩
    "What is Kancha AI?" "What is Kancha AI?"
    "Kancha AI is a multilingual chatbot assistant specifically designed for Nepali users. It supports English, Nepali (Devanagari), and Nepglish (Romanized Nepali)."
    (by decide) (by decide) (by decide)

/-! ## Idempotence machinery for the sanitizer -/

/-- A scanner whose matcher fails at every non-empty suffix is the
identity. -/
theorem scanSub_eq_self (m : List Char → Option (List Char))
    (repl : List Char) :
    ∀ (l : List Char), (∀ c cs, (c :: cs) <:+ l → m (c :: cs) = none) →
      scanSub m repl l = l := by
  intro l
  induction l with
  | nil => intro _; rfl
  | cons c cs ih =>
    intro hfail
    rw [scanSub_cons_none m repl c cs (hfail c cs List.suffix_rfl)]
    rw [ih (fun d ds hs => hfail d ds (hs.trans (List.suffix_cons c cs)))]

/-- A successful match of any of the three URL matchers means the text
starts with a well-formed URL. -/
theorem mUrl_isSome_startsWith (u : List Char)
    (h : (mUrl u).isSome = true) : startsWithUrl u = true := by
  unfold mUrl at h
  cases hs : schemeAt u with
  | none => rw [hs, Option.none_bind] at h; exact absurd h (by simp)
  | some r1 =>
    rw [hs, Option.some_bind] at h
    split at h
    · exact absurd h (by simp)
    · rename_i hne
      cases hr : r1 with
      | nil => rw [hr] at hne; exact absurd rfl hne
      | cons x xs =>
        rw [hr] at hne
        have hx : isWS x = false := by
          by_contra hcon
          rw [Bool.not_eq_false] at hcon
          rw [List.takeWhile_cons_of_neg (by simp [hcon])] at hne
          exact hne rfl
        unfold startsWithUrl
        rw [hs, hr]
        simp [hx]

/-- The youtube watch matcher only fires at a well-formed URL. -/
theorem mYtWatch_isSome_startsWith (u : List Char)
    (h : (mYtWatch u).isSome = true) : startsWithUrl u = true := by
  unfold mYtWatch at h
  cases hs : schemeAt u with
  | none => rw [hs, Option.none_bind] at h; exact absurd h (by simp)
  | some r1 =>
    rw [hs, Option.some_bind] at h
    cases hd : (match dropLit "www.youtube.com/watch?v=".data r1 with
        | some r2 => some r2
        | none => dropLit "youtube.com/watch?v=".data r1) with
    | none => rw [hd, Option.none_bind] at h; exact absurd h (by simp)
    | some r2 =>
      have hr1 : ∃ x xs, r1 = x :: xs ∧ isWS x = false := by
        cases hw : dropLit "www.youtube.com/watch?v=".data r1 with
        | some rw2 =>
          have := dropLit_some _ _ _ hw
          exact ⟨'w', _, by rw [this]; rfl, by decide⟩
        | none =>
          rw [hw] at hd
          have := dropLit_some _ _ _ hd
          exact ⟨'y', _, by rw [this]; rfl, by decide⟩
      obtain ⟨x, xs, hx1, hx2⟩ := hr1
      unfold startsWithUrl
      rw [hs, hx1]
      simp [hx2]

/-- The youtu.be matcher only fires at a well-formed URL. -/
theorem mYtBe_isSome_startsWith (u : List Char)
    (h : (mYtBe u).isSome = true) : startsWithUrl u = true := by
  unfold mYtBe at h
  cases hs : schemeAt u with
  | none => rw [hs, Option.none_bind] at h; exact absurd h (by simp)
  | some r1 =>
    rw [hs, Option.some_bind] at h
    cases hd : dropLit "youtu.be/".data r1 with
    | none => rw [hd, Option.none_bind] at h; exact absurd h (by simp)
    | some r2 =>
      have hr1 : ∃ xs, r1 = 'y' :: xs := by
        have := dropLit_some _ _ _ hd
        exact ⟨_, by rw [this]; rfl⟩
      obtain ⟨xs, hx1⟩ := hr1
      unfold startsWithUrl
      rw [hs, hx1]
      simp [show isWS 'y' = false from by decide]

/-- In a URL-free text no suffix starts with a URL. -/
theorem noUrl_suffix (l : List Char) (h : containsUrlB l = false) :
    ∀ t, t <:+ l → startsWithUrl t = false := by
  intro t ht
  by_contra hcon
  rw [Bool.not_eq_false] at hcon
  have := containsUrl_mono t l (containsUrlB_head t hcon) ht.isInfix
  rw [h] at this
  exact absurd this (by simp)

/-- On a URL-free text each of the three URL passes is the identity. -/
theorem urlPasses_eq_self (y : List Char) (hy : containsUrlB y = false) :
    scanSub mYtWatch replYtWatch y = y ∧ scanSub mYtBe replYtBe y = y ∧
    scanSub mUrl replUrl y = y := by
  refine ⟨?_, ?_, ?_⟩
  · refine scanSub_eq_self _ _ y (fun c cs hs => ?_)
    by_contra hcon
    have h2 : (mYtWatch (c :: cs)).isSome = true := by
      cases hm : mYtWatch (c :: cs) with
      | none => exact absurd hm hcon
      | some r => rfl
    have := mYtWatch_isSome_startsWith _ h2
    rw [noUrl_suffix y hy _ hs] at this
    exact absurd this (by simp)
  · refine scanSub_eq_self _ _ y (fun c cs hs => ?_)
    by_contra hcon
    have h2 : (mYtBe (c :: cs)).isSome = true := by
      cases hm : mYtBe (c :: cs) with
      | none => exact absurd hm hcon
      | some r => rfl
    have := mYtBe_isSome_startsWith _ h2
    rw [noUrl_suffix y hy _ hs] at this
    exact absurd this (by simp)
  · refine scanSub_eq_self _ _ y (fun c cs hs => ?_)
    by_contra hcon
    have h2 : (mUrl (c :: cs)).isSome = true := by
      cases hm : mUrl (c :: cs) with
      | none => exact absurd hm hcon
      | some r => rfl
    have := mUrl_isSome_startsWith _ h2
    rw [noUrl_suffix y hy _ hs] at this
    exact absurd this (by simp)

/-- Equation of the bracket-shape checker at a cons cell. -/
theorem bracketOk_cons_eq (c : Char) (cs : List Char) :
    bracketOk (c :: cs) =
      if c = '[' then decide (cs.head? = some 'L') && bracketOk cs
      else bracketOk cs := rfl

/-- The bracket-shape checker skips a character that is not an opening
bracket. -/
theorem bracketOk_cons_ne (c : Char) (cs : List Char) (h : ¬ c = '[') :
    bracketOk (c :: cs) = bracketOk cs := by
  rw [bracketOk_cons_eq, if_neg h]

/-- The bracket-shape checker at an opening bracket. -/
theorem bracketOk_cons_br (cs : List Char) :
    bracketOk ('[' :: cs) =
      (decide (cs.head? = some 'L') && bracketOk cs) := by
  rw [bracketOk_cons_eq, if_pos rfl]

/-- An opening bracket followed by a capital L passes and the check moves
on. -/
theorem bracketOk_cons_br_L (cs : List Char) :
    bracketOk ('[' :: 'L' :: cs) = bracketOk ('L' :: cs) := by
  rw [bracketOk_cons_br, List.head?_cons]
  simp

/-- Equation of the triple-newline detector at a cons cell. -/
theorem has3NL_cons_eq (c : Char) (cs : List Char) :
    has3NL (c :: cs) =
      ((c = '\n' && decide (cs.take 2 = ['\n', '\n'])) || has3NL cs) := rfl

/-- The remainder a scheme match leaves is a suffix of the text. -/
theorem schemeAt_sfx (l r : List Char) (h : schemeAt l = some r) :
    r <:+ l := by
  rcases schemeAt_some l r h with h2 | h2 <;>
    (rw [h2]; exact List.suffix_append _ _)

/-- The remainder a literal match leaves is a suffix of the text. -/
theorem dropLit_sfx (lit l r : List Char) (h : dropLit lit l = some r) :
    r <:+ l := by
  rw [dropLit_some lit l r h]
  exact List.suffix_append _ _

/-- The remainder the catch-all URL matcher leaves is a suffix of the
text. -/
theorem mUrl_sfx (l r : List Char) (h : mUrl l = some r) : r <:+ l := by
  unfold mUrl at h
  cases hs : schemeAt l with
  | none => rw [hs, Option.none_bind] at h; exact Option.noConfusion h
  | some r1 =>
    rw [hs, Option.some_bind] at h
    split at h
    · exact Option.noConfusion h
    · injection h with h1
      rw [← h1]
      exact (List.dropWhile_suffix _).trans (schemeAt_sfx l r1 hs)

/-- The remainder the youtube watch matcher leaves is a suffix of the
text. -/
theorem mYtWatch_sfx (l r : List Char) (h : mYtWatch l = some r) :
    r <:+ l := by
  unfold mYtWatch at h
  cases hs : schemeAt l with
  | none => rw [hs, Option.none_bind] at h; exact Option.noConfusion h
  | some r1 =>
    rw [hs, Option.some_bind] at h
    have hsfx1 : r1 <:+ l := schemeAt_sfx l r1 hs
    cases hd : (match dropLit "www.youtube.com/watch?v=".data r1 with
        | some r2 => some r2
        | none => dropLit "youtube.com/watch?v=".data r1) with
    | none => rw [hd, Option.none_bind] at h; exact Option.noConfusion h
    | some r2 =>
      rw [hd, Option.some_bind] at h
      have hsfx2 : r2 <:+ r1 := by
        cases hw : dropLit "www.youtube.com/watch?v=".data r1 with
        | some rw2 =>
          rw [hw] at hd
          injection hd with hd1
          rw [← hd1]
          exact dropLit_sfx _ _ _ hw
        | none =>
          rw [hw] at hd
          exact dropLit_sfx _ _ _ hd
      split at h
      · exact Option.noConfusion h
      · injection h with h1
        rw [← h1]
        exact ((List.dropWhile_suffix _).trans hsfx2).trans hsfx1

/-- The remainder the youtu.be matcher leaves is a suffix of the text. -/
theorem mYtBe_sfx (l r : List Char) (h : mYtBe l = some r) : r <:+ l := by
  unfold mYtBe at h
  cases hs : schemeAt l with
  | none => rw [hs, Option.none_bind] at h; exact Option.noConfusion h
  | some r1 =>
    rw [hs, Option.some_bind] at h
    cases hd : dropLit "youtu.be/".data r1 with
    | none => rw [hd, Option.none_bind] at h; exact Option.noConfusion h
    | some r2 =>
      rw [hd, Option.some_bind] at h
      split at h
      · exact Option.noConfusion h
      · injection h with h1
        rw [← h1]
        exact ((List.dropWhile_suffix _).trans
          (dropLit_sfx _ _ _ hd)).trans (schemeAt_sfx l r1 hs)

/-- Every character of the scanner output comes from the replacement
string or from the input, for a matcher whose remainder is a suffix. -/
theorem scanSubF_mem (m : List Char → Option (List Char))
    (repl : List Char) (hs : ∀ l r, m l = some r → r <:+ l) :
    ∀ (n : ℕ) (l : List Char) (ch : Char),
      ch ∈ scanSubF m repl n l → ch ∈ repl ∨ ch ∈ l := by
  intro n
  induction n with
  | zero => intro l ch h; exact Or.inr h
  | succ k ih =>
    intro l ch h
    cases l with
    | nil => exact absurd h (by simp [scanSubF])
    | cons c cs =>
      cases hm : m (c :: cs) with
      | some r =>
        simp only [scanSubF, hm] at h
        rcases List.mem_append.mp h with h2 | h2
        · exact Or.inl h2
        · rcases ih r ch h2 with h3 | h3
          · exact Or.inl h3
          · exact Or.inr ((hs _ _ hm).sublist.subset h3)
      | none =>
        simp only [scanSubF, hm] at h
        rcases List.mem_cons.mp h with rfl | h2
        · exact Or.inr (List.mem_cons_self _ _)
        · rcases ih cs ch h2 with h3 | h3
          · exact Or.inl h3
          · exact Or.inr (List.mem_cons_of_mem c h3)

/-- Provenance of scanner output characters. -/
theorem scanSub_mem (m : List Char → Option (List Char))
    (repl : List Char) (hs : ∀ l r, m l = some r → r <:+ l)
    (l : List Char) (ch : Char) (h : ch ∈ scanSub m repl l) :
    ch ∈ repl ∨ ch ∈ l :=
  scanSubF_mem m repl hs l.length l ch h

/-- Cons normal form of the FAQ metadata opening literal. -/
theorem tagFAQ_cons : tagFAQ = '[' :: 'F' :: "AQ Match:".data := by decide

/-- Cons normal form of the similarity metadata opening literal. -/
theorem tagSim_cons : tagSim = '[' :: 'S' :: "imilarity:".data := by decide

/-- Cons normal form of the match metadata opening literal. -/
theorem tagMatch_cons : tagMatch = '[' :: 'M' :: "atch".data := by decide

/-- A metadata matcher whose tag holds an opening bracket fails on a text
without one. -/
theorem mTag_none_of_no_bracket (tag u : List Char) (htag : '[' ∈ tag)
    (hu : '[' ∉ u) : mTag tag u = none := by
  unfold mTag
  cases hd : dropLit tag u with
  | none => rfl
  | some r =>
    have heq := dropLit_some tag u r hd
    rw [heq] at hu
    exact absurd (List.mem_append.mpr (Or.inl htag)) hu

/-- A metadata matcher whose tag continues an opening bracket with
anything but a capital L fails on a bracket-shaped text. -/
theorem mTag_none_of_bracketOk (t2 : Char) (rest u : List Char)
    (ht2 : ¬ t2 = 'L') (hu : bracketOk u = true) :
    mTag ('[' :: t2 :: rest) u = none := by
  unfold mTag
  cases hd : dropLit ('[' :: t2 :: rest) u with
  | none => rfl
  | some r =>
    have heq := dropLit_some _ u r hd
    rw [heq, List.cons_append, List.cons_append, bracketOk_cons_br,
      Bool.and_eq_true] at hu
    obtain ⟨h1, _⟩ := hu
    have h2 := of_decide_eq_true h1
    rw [List.head?_cons] at h2
    exact absurd (Option.some.inj h2) ht2

/-- The bracket-shape check is closed under suffixes. -/
theorem bracketOk_sfx :
    ∀ (u t : List Char), t <:+ u → bracketOk u = true →
      bracketOk t = true := by
  intro u
  induction u with
  | nil =>
    intro t ht _
    rw [List.suffix_nil.mp ht]
    rfl
  | cons c cs ih =>
    intro t ht hu
    rcases List.suffix_cons_iff.mp ht with rfl | ht2
    · exact hu
    · refine ih t ht2 ?_
      by_cases hc : c = '['
      · subst hc
        rw [bracketOk_cons_br, Bool.and_eq_true] at hu
        exact hu.2
      · rw [bracketOk_cons_ne c cs hc] at hu
        exact hu

/-- A text without an opening bracket is bracket-shaped. -/
theorem bracketOk_of_not_mem :
    ∀ (l : List Char), '[' ∉ l → bracketOk l = true := by
  intro l
  induction l with
  | nil => intro _; rfl
  | cons c cs ih =>
    intro h
    have hc : ¬ c = '[' := fun he => h (List.mem_cons.mpr (Or.inl he.symm))
    rw [bracketOk_cons_ne c cs hc]
    exact ih (fun hm => h (List.mem_cons_of_mem c hm))

/-- Prepending bracket-free characters does not affect the bracket-shape
check. -/
theorem bracketOk_nb_append :
    ∀ (pad X : List Char), (∀ p ∈ pad, ¬ p = '[') →
      bracketOk (pad ++ X) = bracketOk X := by
  intro pad
  induction pad with
  | nil => intro X _; rfl
  | cons p pr ih =>
    intro X h
    rw [List.cons_append,
      bracketOk_cons_ne p _ (h p (List.mem_cons_self p pr))]
    exact ih X (fun q hq => h q (List.mem_cons_of_mem p hq))

/-- Prepending a bracket-shaped text not ending in an opening bracket
does not affect the bracket-shape check. -/
theorem bracketOk_append_ok :
    ∀ (a w : List Char), bracketOk a = true →
      (a ≠ [] → a.getLast? ≠ some '[') →
      bracketOk (a ++ w) = bracketOk w := by
  intro a
  induction a with
  | nil => intro w _ _; rfl
  | cons c cs ih =>
    intro w ha hlast
    rw [List.cons_append]
    by_cases hc : c = '['
    · subst hc
      rw [bracketOk_cons_br, Bool.and_eq_true] at ha
      obtain ⟨h1, h2⟩ := ha
      cases cs with
      | nil => simp at h1
      | cons d ds =>
        have hd : d = 'L' := by
          have h3 := of_decide_eq_true h1
          rw [List.head?_cons] at h3
          exact Option.some.inj h3
        subst hd
        rw [List.cons_append, bracketOk_cons_br_L, ← List.cons_append]
        exact ih w h2 (fun _ hco => hlast (by simp)
          (by rw [List.getLast?_cons_cons]; exact hco))
    · rw [bracketOk_cons_ne c _ hc]
      rw [bracketOk_cons_ne c cs hc] at ha
      cases cs with
      | nil => exact ih w ha (fun hne => absurd rfl hne)
      | cons d ds =>
        exact ih w ha (fun _ hco => hlast (by simp)
          (by rw [List.getLast?_cons_cons]; exact hco))

/-- The URL replacement string is transparent to the bracket-shape
check. -/
theorem bracketOk_replUrl_append (w : List Char) :
    bracketOk (replUrl ++ w) = bracketOk w :=
  bracketOk_append_ok replUrl w (by decide) (fun _ => by decide)

/-- The URL pass on a bracket-free text yields a bracket-shaped text:
the only opening brackets of the output come from the replacement
string, where a capital L follows. -/
theorem bracketOk_sUrl :
    ∀ (n : ℕ) (l : List Char), l.length ≤ n → '[' ∉ l →
      bracketOk (scanSub mUrl replUrl l) = true := by
  intro n
  induction n with
  | zero =>
    intro l h1 _
    have h2 : l = [] := List.length_eq_zero.mp (Nat.le_zero.mp h1)
    subst h2
    rfl
  | succ k ih =>
    intro l hn hbr
    cases l with
    | nil => rfl
    | cons c cs =>
      cases hm : mUrl (c :: cs) with
      | some r =>
        rw [scanSub_cons_some mUrl replUrl mUrl_shrinks c cs r hm,
          bracketOk_replUrl_append]
        have hlen : r.length ≤ k := by
          have h2 := mUrl_shrinks _ _ hm
          simp only [List.length_cons] at h2 hn
          omega
        exact ih r hlen
          (fun hmem => hbr ((mUrl_sfx _ _ hm).sublist.subset hmem))
      | none =>
        rw [scanSub_cons_none mUrl replUrl c cs hm]
        have hc : ¬ c = '[' := fun he =>
          hbr (List.mem_cons.mpr (Or.inl he.symm))
        rw [bracketOk_cons_ne c _ hc]
        have hlen : cs.length ≤ k := by
          simp only [List.length_cons] at hn
          omega
        exact ih cs hlen (fun hmem => hbr (List.mem_cons_of_mem c hmem))

/-- Newline collapsing preserves the bracket shape. -/
theorem bracketOk_collapseF :
    ∀ (n : ℕ) (l : List Char), l.length ≤ n → bracketOk l = true →
      bracketOk (collapseNL l) = true := by
  intro n
  induction n with
  | zero =>
    intro l h1 _
    have h2 : l = [] := List.length_eq_zero.mp (Nat.le_zero.mp h1)
    subst h2
    rfl
  | succ k ih =>
    intro l hn hb
    cases l with
    | nil => rfl
    | cons c cs =>
      by_cases hc : c = '\n'
      · subst hc
        rw [collapseNL_cons_nl]
        have hpadNl : ∀ p ∈ (if 3 ≤
            (('\n' :: cs).takeWhile (fun x => x = '\n')).length
            then ['\n', '\n']
            else ('\n' :: cs).takeWhile (fun x => x = '\n')),
            ¬ p = '[' := by
          intro p hp
          split at hp
          · rcases List.mem_cons.mp hp with rfl | hp2
            · decide
            · rcases List.mem_cons.mp hp2 with rfl | hp3
              · decide
              · exact absurd hp3 (List.not_mem_nil p)
          · have h2 := List.mem_takeWhile_imp hp
            have h3 : p = '\n' := of_decide_eq_true h2
            rw [h3]
            decide
        rw [bracketOk_nb_append _ _ hpadNl]
        have hrest : (('\n' :: cs).dropWhile (fun x => x = '\n')).length ≤
            cs.length := by
          rw [List.dropWhile_cons_of_pos (by simp)]
          exact (List.dropWhile_suffix _).length_le
        have hlen : (('\n' :: cs).dropWhile (fun x => x = '\n')).length ≤
            k := by
          simp only [List.length_cons] at hn
          omega
        refine ih _ hlen (bracketOk_sfx _ _ (List.dropWhile_suffix _) hb)
      · rw [collapseNL_cons c cs hc]
        by_cases hcb : c = '['
        · subst hcb
          rw [bracketOk_cons_br] at hb
          rw [Bool.and_eq_true] at hb
          obtain ⟨h1, h2⟩ := hb
          cases cs with
          | nil => simp at h1
          | cons d ds =>
            have hd : d = 'L' := by
              have h3 := of_decide_eq_true h1
              rw [List.head?_cons] at h3
              exact Option.some.inj h3
            subst hd
            rw [bracketOk_cons_br, collapseNL_cons 'L' ds (by decide),
              List.head?_cons, Bool.and_eq_true]
            have hlen : ('L' :: ds).length ≤ k := by
              simp only [List.length_cons] at hn ⊢
              omega
            have hrec := ih ('L' :: ds) hlen h2
            rw [collapseNL_cons 'L' ds (by decide)] at hrec
            exact ⟨by decide, hrec⟩
        · rw [bracketOk_cons_ne c cs hcb] at hb
          rw [bracketOk_cons_ne c _ hcb]
          have hlen : cs.length ≤ k := by
            simp only [List.length_cons] at hn
            omega
          exact ih cs hlen hb

/-- Newline collapsing preserves the bracket shape (wrapper). -/
theorem bracketOk_collapseNL (l : List Char) (h : bracketOk l = true) :
    bracketOk (collapseNL l) = true :=
  bracketOk_collapseF l.length l le_rfl h

/-- Dropping an all-whitespace tail preserves the bracket shape: a
bracket demanding a capital L can never sit against whitespace. -/
theorem bracketOk_ws_split :
    ∀ (a b : List Char), bracketOk (a ++ b) = true →
      (∀ c ∈ b, isWS c = true) → bracketOk a = true := by
  intro a
  induction a with
  | nil => intro b _ _; rfl
  | cons c cs ih =>
    intro b h hb
    by_cases hc : c = '['
    · subst hc
      rw [List.cons_append, bracketOk_cons_br, Bool.and_eq_true] at h
      obtain ⟨h1, h2⟩ := h
      cases cs with
      | nil =>
        rw [List.nil_append] at h1
        have h3 := of_decide_eq_true h1
        cases b with
        | nil => exact absurd h3 (by simp)
        | cons d ds =>
          rw [List.head?_cons] at h3
          have hd := Option.some.inj h3
          have h4 := hb d (List.mem_cons_self d ds)
          rw [hd] at h4
          exact absurd h4 (by decide)
      | cons d ds =>
        have hd : d = 'L' := by
          have h3 := of_decide_eq_true h1
          rw [List.cons_append, List.head?_cons] at h3
          exact Option.some.inj h3
        subst hd
        rw [bracketOk_cons_br, List.head?_cons, Bool.and_eq_true]
        exact ⟨by decide, ih b h2 hb⟩
    · rw [List.cons_append, bracketOk_cons_ne c _ hc] at h
      rw [bracketOk_cons_ne c cs hc]
      exact ih b h hb

/-- Splitting off the all-whitespace tail that the right strip
removes. -/
theorem stripR_decomp (x : List Char) :
    ∃ b, x = (x.reverse.dropWhile isWS).reverse ++ b ∧
      ∀ c ∈ b, isWS c = true := by
  refine ⟨(x.reverse.takeWhile isWS).reverse, ?_, ?_⟩
  · have h := List.takeWhile_append_dropWhile isWS x.reverse
    have h2 := congrArg List.reverse h
    rw [List.reverse_append, List.reverse_reverse] at h2
    exact h2.symm
  · intro c hc
    rw [List.mem_reverse] at hc
    exact List.mem_takeWhile_imp hc

/-- Stripping preserves the bracket shape. -/
theorem bracketOk_stripL (x : List Char) (h : bracketOk x = true) :
    bracketOk (stripL x) = true := by
  have h1 : bracketOk (x.dropWhile isWS) = true :=
    bracketOk_sfx x _ (List.dropWhile_suffix isWS) h
  obtain ⟨b, hb1, hb2⟩ := stripR_decomp (x.dropWhile isWS)
  have h2 : bracketOk
      (((x.dropWhile isWS).reverse.dropWhile isWS).reverse ++ b) = true := by
    rw [← hb1]
    exact h1
  exact bracketOk_ws_split _ b h2 hb2

/-- The triple-newline detector finds exactly the occurrences of three
consecutive newlines. -/
theorem has3NL_iff :
    ∀ (l : List Char), has3NL l = true ↔ ['\n', '\n', '\n'] <:+: l := by
  intro l
  induction l with
  | nil =>
    constructor
    · intro h; exact absurd h (by decide)
    · intro h
      have h2 := h.length_le
      simp at h2
  | cons c cs ih =>
    rw [has3NL_cons_eq]
    constructor
    · intro h
      rw [Bool.or_eq_true] at h
      rcases h with h1 | h2
      · rw [Bool.and_eq_true] at h1
        obtain ⟨ha, hb⟩ := h1
        have hc : c = '\n' := of_decide_eq_true ha
        have ht : cs.take 2 = ['\n', '\n'] := of_decide_eq_true hb
        subst hc
        have hcs : cs = '\n' :: '\n' :: cs.drop 2 := by
          conv_lhs => rw [← List.take_append_drop 2 cs]
          rw [ht]
          rfl
        refine ⟨[], cs.drop 2, ?_⟩
        rw [List.nil_append]
        conv_rhs => rw [hcs]
        rfl
      · exact (ih.mp h2).trans (List.suffix_cons c cs).isInfix
    · intro h
      rcases List.infix_cons_iff.mp h with hpre | hinf
      · obtain ⟨t, ht⟩ := hpre
        rw [List.cons_append] at ht
        injection ht with h1 h2
        rw [Bool.or_eq_true]
        left
        rw [Bool.and_eq_true]
        constructor
        · exact decide_eq_true h1.symm
        · apply decide_eq_true
          rw [← h2]
          rfl
      · rw [Bool.or_eq_true]
        exact Or.inr (ih.mpr hinf)

/-- A part of a text without a triple newline has no triple newline. -/
theorem has3NL_anti (t u : List Char) (h : t <:+: u)
    (hu : has3NL u = false) : has3NL t = false := by
  by_contra hc
  rw [Bool.not_eq_false] at hc
  have h2 := (has3NL_iff u).mpr (((has3NL_iff t).mp hc).trans h)
  rw [hu] at h2
  exact absurd h2 (by simp)

/-- The first three characters of a long enough all-newline run. -/
theorem take3_nl :
    ∀ (r : List Char), (∀ c ∈ r, c = '\n') → 3 ≤ r.length →
      r.take 3 = ['\n', '\n', '\n'] := by
  intro r h hlen
  cases r with
  | nil => simp at hlen
  | cons a b =>
    cases b with
    | nil => simp at hlen
    | cons a2 b2 =>
      cases b2 with
      | nil => simp at hlen
      | cons a3 b3 =>
        rw [h a (by simp), h a2 (by simp), h a3 (by simp)]
        rfl

/-- Padding with at most two newlines before a text that neither starts
with a newline nor holds a triple newline yields no triple newline. -/
theorem no3_pad_append (pad X : List Char) (hlen : pad.length ≤ 2)
    (hX : has3NL X = false) (hhead : ∀ ds : List Char, X ≠ '\n' :: ds) :
    has3NL (pad ++ X) = false := by
  by_contra hc
  rw [Bool.not_eq_false] at hc
  have h3 := (has3NL_iff _).mp hc
  rcases infix_append_cases pad X _ h3 with h | h | ⟨t₁, t₂, ht, hne, hs, hp⟩
  · have h2 := h.length_le
    simp at h2
    omega
  · have h2 := (has3NL_iff X).mpr h
    rw [hX] at h2
    exact absurd h2 (by simp)
  · cases t₂ with
    | nil =>
      rw [List.append_nil] at ht
      rw [← ht] at hs
      have h2 := hs.length_le
      simp at h2
      omega
    | cons d ds =>
      have hd : d ∈ (['\n', '\n', '\n'] : List Char) := by
        rw [ht]
        exact List.mem_append.mpr (Or.inr (List.mem_cons_self d ds))
      have hd2 : d = '\n' := by simpa using hd
      obtain ⟨t, ht2⟩ := hp
      exact hhead (ds ++ t) (by rw [← ht2, hd2, List.cons_append])

/-- The collapsed text holds no triple newline. -/
theorem collapse_no3F :
    ∀ (n : ℕ) (l : List Char), l.length ≤ n →
      has3NL (collapseNL l) = false := by
  intro n
  induction n with
  | zero =>
    intro l h1
    have h2 : l = [] := List.length_eq_zero.mp (Nat.le_zero.mp h1)
    subst h2
    rfl
  | succ k ih =>
    intro l hn
    cases l with
    | nil => rfl
    | cons c cs =>
      by_cases hc : c = '\n'
      · subst hc
        rw [collapseNL_cons_nl]
        have hXlen : (('\n' :: cs).dropWhile (fun x => x = '\n')).length ≤
            k := by
          have h2 : (('\n' :: cs).dropWhile (fun x => x = '\n')).length ≤
              cs.length := by
            rw [List.dropWhile_cons_of_pos (by simp)]
            exact (List.dropWhile_suffix _).length_le
          simp only [List.length_cons] at hn
          omega
        refine no3_pad_append _ _ ?_ (ih _ hXlen) ?_
        · split
          · decide
          · rename_i hcond
            omega
        · intro ds hX
          cases hrest : ('\n' :: cs).dropWhile (fun x => x = '\n') with
          | nil =>
            rw [hrest] at hX
            have h2 : collapseNL ([] : List Char) = [] := rfl
            rw [h2] at hX
            exact List.noConfusion hX
          | cons d dt =>
            have hd : ¬ d = '\n' := by
              have h2 := dropWhile_head_not _ _ _ _ hrest
              exact of_decide_eq_false h2
            rw [hrest, collapseNL_cons d dt hd] at hX
            injection hX with h1 _
            exact hd h1
      · rw [collapseNL_cons c cs hc, has3NL_cons_eq]
        have hlen : cs.length ≤ k := by
          simp only [List.length_cons] at hn
          omega
        rw [ih cs hlen, decide_eq_false hc]
        rfl

/-- The collapsed text holds no triple newline (wrapper). -/
theorem collapse_no3 (l : List Char) : has3NL (collapseNL l) = false :=
  collapse_no3F l.length l le_rfl

/-- A text without a triple newline is a fixed point of the newline
collapse. -/
theorem collapse_eq_selfF :
    ∀ (n : ℕ) (l : List Char), l.length ≤ n → has3NL l = false →
      collapseNL l = l := by
  intro n
  induction n with
  | zero =>
    intro l h1 _
    have h2 : l = [] := List.length_eq_zero.mp (Nat.le_zero.mp h1)
    subst h2
    rfl
  | succ k ih =>
    intro l hn h3
    cases l with
    | nil => rfl
    | cons c cs =>
      by_cases hc : c = '\n'
      · subst hc
        rw [collapseNL_cons_nl]
        have hrun : ¬ 3 ≤
            (('\n' :: cs).takeWhile (fun x => x = '\n')).length := by
          intro hge
          have htake : (('\n' :: cs).takeWhile
              (fun x => x = '\n')).take 3 = ['\n', '\n', '\n'] :=
            take3_nl _
              (fun d hd2 => by
                have h5 := List.mem_takeWhile_imp hd2
                exact of_decide_eq_true h5)
              hge
          have h2 : has3NL ('\n' :: cs) = true := by
            refine (has3NL_iff _).mpr ⟨[],
              ((('\n' :: cs).takeWhile (fun x => x = '\n')).drop 3) ++
                (('\n' :: cs).dropWhile (fun x => x = '\n')), ?_⟩
            rw [List.nil_append, ← List.append_assoc, ← htake,
              List.take_append_drop, List.takeWhile_append_dropWhile]
          rw [h3] at h2
          exact absurd h2 (by decide)
        rw [if_neg hrun]
        have hdw_len : (('\n' :: cs).dropWhile
            (fun x => x = '\n')).length ≤ k := by
          have h2 : (('\n' :: cs).dropWhile (fun x => x = '\n')).length ≤
              cs.length := by
            rw [List.dropWhile_cons_of_pos (by simp)]
            exact (List.dropWhile_suffix _).length_le
          simp only [List.length_cons] at hn
          omega
        have h3dw : has3NL (('\n' :: cs).dropWhile
            (fun x => x = '\n')) = false :=
          has3NL_anti _ _ (List.dropWhile_suffix _).isInfix h3
        rw [ih _ hdw_len h3dw]
        exact List.takeWhile_append_dropWhile _ _
      · rw [collapseNL_cons c cs hc]
        have h3cs : has3NL cs = false := by
          rw [has3NL_cons_eq] at h3
          rcases Bool.or_eq_false_iff.mp h3 with ⟨_, h2⟩
          exact h2
        rw [ih cs (by simp only [List.length_cons] at hn; omega) h3cs]

/-- A text without a triple newline is a fixed point of the newline
collapse (wrapper). -/
theorem collapse_eq_self (l : List Char) (h : has3NL l = false) :
    collapseNL l = l :=
  collapse_eq_selfF l.length l le_rfl h

/-- The last character of a non-empty stripped text is not whitespace. -/
theorem stripL_rev_head_not_ws (l : List Char) (c : Char) (cs : List Char)
    (h : (stripL l).reverse = c :: cs) : isWS c = false := by
  have h2 : (stripL l).reverse = (l.dropWhile isWS).reverse.dropWhile isWS := by
    unfold stripL
    rw [List.reverse_reverse]
  rw [h2] at h
  exact dropWhile_head_not isWS _ c cs h

/-- Stripping is idempotent. -/
theorem stripL_idem (l : List Char) : stripL (stripL l) = stripL l := by
  cases h : stripL l with
  | nil => rfl
  | cons c cs =>
    have hc := stripL_head_not_ws l c cs h
    have h1 : (c :: cs).dropWhile isWS = c :: cs :=
      List.dropWhile_cons_of_neg (by simp [hc])
    cases hr : (stripL l).reverse with
    | nil =>
      rw [h] at hr
      simp at hr
    | cons d ds =>
      have hd := stripL_rev_head_not_ws l d ds hr
      rw [h] at hr
      show (((c :: cs).dropWhile isWS).reverse.dropWhile isWS).reverse =
        c :: cs
      rw [h1, hr, List.dropWhile_cons_of_neg (by simp [hd]), ← hr,
        List.reverse_reverse]

/-- A metadata pass is the identity on a bracket-free text. -/
theorem tagPass_eq_self_of_nb (tag : List Char) (htag : '[' ∈ tag)
    (x : List Char) (hx : '[' ∉ x) : scanSub (mTag tag) [] x = x := by
  refine scanSub_eq_self _ _ x (fun c cs hs => ?_)
  refine mTag_none_of_no_bracket tag _ htag (fun hm => hx ?_)
  exact hs.sublist.subset hm

/-- The output of clean on a bracket-free input is bracket-shaped: its
only opening brackets come from the URL replacement string. -/
theorem cleanL_bracketOk (x : List Char) (hx : '[' ∉ x) :
    bracketOk (cleanL x) = true := by
  unfold cleanL
  rw [tagPass_eq_self_of_nb tagFAQ (by decide) x hx,
    tagPass_eq_self_of_nb tagSim (by decide) x hx,
    tagPass_eq_self_of_nb tagMatch (by decide) x hx]
  have hw1 : '[' ∉ scanSub mYtWatch replYtWatch x := by
    intro hmem
    rcases scanSub_mem mYtWatch replYtWatch mYtWatch_sfx _ _ hmem with h | h
    · exact absurd h (by decide)
    · exact hx h
  have hw2 : '[' ∉ scanSub mYtBe replYtBe
      (scanSub mYtWatch replYtWatch x) := by
    intro hmem
    rcases scanSub_mem mYtBe replYtBe mYtBe_sfx _ _ hmem with h | h
    · exact absurd h (by decide)
    · exact hw1 h
  exact bracketOk_stripL _
    (bracketOk_collapseNL _ (bracketOk_sUrl _ _ le_rfl hw2))

/-- clean is the identity on a bracket-shaped, URL-free, stripped text
without a triple newline. -/
theorem cleanL_eq_self (y : List Char) (hbr : bracketOk y = true)
    (hurl : containsUrlB y = false) (h3 : has3NL y = false)
    (hstrip : stripL y = y) : cleanL y = y := by
  unfold cleanL
  have hT1 : scanSub (mTag tagFAQ) [] y = y := by
    refine scanSub_eq_self _ _ y (fun c cs hs => ?_)
    rw [tagFAQ_cons]
    exact mTag_none_of_bracketOk 'F' _ _ (by decide)
      (bracketOk_sfx y _ hs hbr)
  have hT2 : scanSub (mTag tagSim) [] y = y := by
    refine scanSub_eq_self _ _ y (fun c cs hs => ?_)
    rw [tagSim_cons]
    exact mTag_none_of_bracketOk 'S' _ _ (by decide)
      (bracketOk_sfx y _ hs hbr)
  have hT3 : scanSub (mTag tagMatch) [] y = y := by
    refine scanSub_eq_self _ _ y (fun c cs hs => ?_)
    rw [tagMatch_cons]
    exact mTag_none_of_bracketOk 'M' _ _ (by decide)
      (bracketOk_sfx y _ hs hbr)
  obtain ⟨hY1, hY2, hU⟩ := urlPasses_eq_self y hurl
  rw [hT1, hT2, hT3, hY1, hY2, hU, collapse_eq_self y h3, hstrip]

/-- On bracket-free inputs clean is idempotent. -/
theorem cleanL_idem_nb (x : List Char) (hx : '[' ∉ x) :
    cleanL (cleanL x) = cleanL x := by
  have hbr := cleanL_bracketOk x hx
  have hurl := cleanL_noUrl x
  have h3 : has3NL (cleanL x) = false := by
    unfold cleanL
    exact has3NL_anti _ _ (stripL_isInfix _) (collapse_no3 _)
  have hstrip : stripL (cleanL x) = cleanL x := by
    unfold cleanL
    exact stripL_idem _
  exact cleanL_eq_self _ hbr hurl h3 hstrip

/-- Counterexample to claim C6 as stated: clean is not idempotent on all
inputs.  Removing the inner metadata block of the crafted input splices
its surroundings into a fresh metadata block that only the second run
removes. -/
theorem claim_C6_counterexample :
    ¬ (∀ s : String, ResponseProcessor.clean (ResponseProcessor.clean s) =
      ResponseProcessor.clean s) := by
  intro h
  exact absurd (h "a[Mat[Match:]ch]b") (by decide)

/-- Claim C6 (amended): the response sanitizer is idempotent on every
input without an opening square bracket; the non-idempotence witnessed
above needs nested bracketed metadata in the input. -/
theorem claim_C6_amended (s : String) (h : '[' ∉ s.data) :
    ResponseProcessor.clean (ResponseProcessor.clean s) =
      ResponseProcessor.clean s := by
  have hdata : (ResponseProcessor.clean s).data = cleanL s.data := rfl
  calc ResponseProcessor.clean (ResponseProcessor.clean s)
      = String.mk (cleanL (ResponseProcessor.clean s).data) := rfl
    _ = String.mk (cleanL (cleanL s.data)) := by rw [hdata]
    _ = String.mk (cleanL s.data) :=
        congrArg String.mk (cleanL_idem_nb s.data h)
    _ = ResponseProcessor.clean s := rfl

/-- Witness for the amended claim C6 at a concrete bracket-free input
holding a URL and a long newline run. -/
theorem claim_C6_amended_witness :
    '[' ∉ "hi http://a.b\n\n\n\nend".data ∧
      ResponseProcessor.clean
          (ResponseProcessor.clean "hi http://a.b\n\n\n\nend") =
        ResponseProcessor.clean "hi http://a.b\n\n\n\nend" :=
  ⟨by decide, claim_C6_amended "hi http://a.b\n\n\n\nend" (by decide)⟩
